import Mathlib

/-!
Verification of the Battlesnake starter bots: a shallow embedding of
`main.py` and the three example bots (`safe.py`, `greedy.py`,
`aggressive.py`), together with proofs about the properties their
specification states.

Coordinates are integers (Python ints), sets of cells are modelled as
lists queried by membership, Python dicts keyed by cells are modelled as
association lists, and the `heapq` priority queue is modelled as a
multiset (a list) popped at its lexicographic minimum, which is the
observable behaviour of `heappush`/`heappop` on `(dist, (x, y))` tuples.
Scores, which the Python code computes with floats, are modelled in exact
rational arithmetic; the per-candidate `random.random() * 0.01` jitter is
modelled as an explicit input `jit : Nat → ℚ` indexed by candidate
position, constrained to `[0, 1/100)`.
-/

/-- A board cell, Python's `{"x": ..., "y": ...}` dict. -/
structure Coord where
  x : Int
  y : Int
deriving DecidableEq, Repr

/-- A snake as delivered in the snapshot: id, head, body (head first),
length and health. -/
structure Snake where
  id : String
  head : Coord
  body : List Coord
  length : Nat
  health : Int
deriving DecidableEq, Repr

/-- The board part of the snapshot. -/
structure Board where
  width : Int
  height : Int
  snakes : List Snake
  food : List Coord
deriving DecidableEq, Repr

/-- A game snapshot: the board and the planner's own snake (`you`). -/
structure GameState where
  board : Board
  you : Snake
deriving DecidableEq, Repr

/-- The four direction tokens. -/
inductive Move where
  | up
  | down
  | left
  | right
deriving DecidableEq, Repr

/-- The unit delta of each direction, as in the `DIRECTIONS` dict. -/
def Move.delta : Move → Int × Int
  | .up => (0, 1)
  | .down => (0, -1)
  | .left => (-1, 0)
  | .right => (1, 0)

/-- Iteration order of the `DIRECTIONS` dict (Python dicts iterate in
insertion order). -/
def DIRECTIONS : List Move := [.up, .down, .left, .right]

/-- Byte order of the four direction strings: "down" < "left" < "right" <
"up".  Used to model Python's tuple comparison `(score, move_string)` in
`scored.sort(reverse=True)`. -/
def Move.rank : Move → Nat
  | .down => 0
  | .left => 1
  | .right => 2
  | .up => 3

/-- The `(x, y)` tuple used as a set/dict key for a cell. -/
def ckey (c : Coord) : Int × Int := (c.x, c.y)

/-- `0 <= x < width and 0 <= y < height` on a key tuple. -/
def InB (w h : Int) (k : Int × Int) : Prop :=
  0 ≤ k.1 ∧ k.1 < w ∧ 0 ≤ k.2 ∧ k.2 < h

instance (w h : Int) (k : Int × Int) : Decidable (InB w h k) := by
  unfold InB
  infer_instance

/-- `in_bounds` of the example bots. -/
def in_bounds (pt : Coord) (width height : Int) : Prop :=
  InB width height (ckey pt)

instance (pt : Coord) (w h : Int) : Decidable (in_bounds pt w h) := by
  unfold in_bounds
  infer_instance

/-- `manhattan` of the example bots. -/
def manhattan (a b : Coord) : Nat :=
  (a.x - b.x).natAbs + (a.y - b.y).natAbs

/-- `board_occupied_cells` / `all_body_cells`: every body cell of every
snake in the snapshot. -/
def board_occupied_cells (gs : GameState) : List (Int × Int) :=
  gs.board.snakes.flatMap (fun s => s.body.map ckey)

/-- `next_heads_of_opponents` / `next_heads_set`: the in-bounds one-step
neighbours of the head of EVERY snake in the snapshot (the loop ranges
over `board["snakes"]`, which includes the planner's own snake). -/
def next_heads_of_opponents (gs : GameState) : List (Int × Int) :=
  gs.board.snakes.flatMap (fun s =>
    (DIRECTIONS.map (fun m => (s.head.x + m.delta.1, s.head.y + m.delta.2))).filter
      (fun k => decide (InB gs.board.width gs.board.height k)))

/-- One neighbour-expansion pass of `flood_fill_size`'s inner `for` loop:
append the in-bounds, unblocked, unseen neighbours of `cur` to the queue
and mark them seen, in direction order. -/
def floodExpand (blocked : List (Int × Int)) (w h : Int) (cur : Coord) :
    List Move → List Coord → List (Int × Int) → List Coord × List (Int × Int)
  | [], q, seen => (q, seen)
  | m :: ms, q, seen =>
      let k : Int × Int := (cur.x + m.delta.1, cur.y + m.delta.2)
      if InB w h k ∧ k ∉ blocked ∧ k ∉ seen then
        floodExpand blocked w h cur ms (q ++ [⟨k.1, k.2⟩]) (seen ++ [k])
      else
        floodExpand blocked w h cur ms q seen

/-- The `while q and count < limit` loop of `flood_fill_size`; the
returned number is the final `count` (one increment per iteration), and
`fuel` is the remaining budget `limit - count`. -/
def floodAux (blocked : List (Int × Int)) (w h : Int) :
    Nat → List Coord → List (Int × Int) → Nat
  | 0, _, _ => 0
  | _ + 1, [], _ => 0
  | fuel + 1, cur :: qrest, seen =>
      let qs := floodExpand blocked w h cur DIRECTIONS qrest seen
      1 + floodAux blocked w h fuel qs.1 qs.2

/-- `flood_fill_size` of the example bots. -/
def flood_fill_size (start : Coord) (blocked : List (Int × Int))
    (width height : Int) (limit : Nat) : Nat :=
  if ckey start ∈ blocked ∨ ¬ in_bounds start width height then 0
  else floodAux blocked width height limit [start] [ckey start]

/-- One neighbour-expansion pass of `bfs_distance`'s inner `for` loop.
Returns `Sum.inl (dist + 1)` when the target is generated (the Python
`return dist + 1` inside the loop), otherwise the updated queue and seen
set. -/
def bfsExpand (target : Coord) (blocked : List (Int × Int)) (w h : Int)
    (cur : Coord) (dist : Nat) :
    List Move → List (Coord × Nat) → List (Int × Int) →
      Sum Nat (List (Coord × Nat) × List (Int × Int))
  | [], q, seen => Sum.inr (q, seen)
  | m :: ms, q, seen =>
      let nx : Int := cur.x + m.delta.1
      let ny : Int := cur.y + m.delta.2
      if ¬ InB w h (nx, ny) then bfsExpand target blocked w h cur dist ms q seen
      else if (nx, ny) ∈ blocked ∨ (nx, ny) ∈ seen then
        bfsExpand target blocked w h cur dist ms q seen
      else if nx = target.x ∧ ny = target.y then Sum.inl (dist + 1)
      else
        bfsExpand target blocked w h cur dist ms
          (q ++ [(⟨nx, ny⟩, dist + 1)]) (seen ++ [(nx, ny)])

/-- The `while q and steps < limit` loop of `bfs_distance`. -/
def bfsAux (target : Coord) (blocked : List (Int × Int)) (w h : Int) :
    Nat → List (Coord × Nat) → List (Int × Int) → Option Nat
  | 0, _, _ => none
  | _ + 1, [], _ => none
  | fuel + 1, (cur, dist) :: rest, seen =>
      match bfsExpand target blocked w h cur dist DIRECTIONS rest seen with
      | .inl d => some d
      | .inr qs => bfsAux target blocked w h fuel qs.1 qs.2

/-- `bfs_distance` of `greedy.py`. -/
def bfs_distance (start target : Coord) (blocked : List (Int × Int))
    (w h : Int) (limit : Nat) : Option Nat :=
  if ckey start ∈ blocked ∨ ckey target ∈ blocked then none
  else if start = target then some 0
  else bfsAux target blocked w h limit [(start, 0)] [ckey start]

/-- `nearest_food` / `nearest`: `min(foods, key=manhattan-to-head)`,
which keeps the first minimiser in list order. -/
def nearest_food (head : Coord) : List Coord → Option Coord
  | [] => none
  | f :: fs =>
      some (fs.foldl
        (fun best g => if manhattan head g < manhattan head best then g else best) f)

/-- The neck-reversal check: `is_move_safe[m]` after the four `if`s
comparing the neck to the head. -/
def neckSafe (head neck : Coord) : Move → Bool
  | .left => !decide (neck.x < head.x)
  | .right => !decide (head.x < neck.x)
  | .down => !decide (neck.y < head.y)
  | .up => !decide (head.y < neck.y)

/-- `is_move_safe` as a function of the body: the neck checks run only
when the body has at least two segments. -/
def is_move_safe (head : Coord) (body : List Coord) (m : Move) : Bool :=
  match body with
  | _ :: neck :: _ => neckSafe head neck m
  | _ => true

/-- `largest_opp`: greatest length among snakes whose id differs from the
planner's (0 when there are none). -/
def largest_opp (gs : GameState) : Nat :=
  gs.board.snakes.foldl
    (fun acc s => if s.id ≠ gs.you.id then max acc s.length else acc) 0

/-- The opponent list `[s for s in board["snakes"] if s["id"] != you["id"]]`. -/
def opponentsOf (gs : GameState) : List Snake :=
  gs.board.snakes.filter (fun s => decide (s.id ≠ gs.you.id))

/-- The blocked set of the example bots: all body cells with the
planner's current tail cell discarded.  (On an empty body the Python code
raises before reaching this point; the `none` branch is never used by the
move functions, which bail out first.) -/
def blockedCells (gs : GameState) : List (Int × Int) :=
  match gs.you.body.getLast? with
  | none => board_occupied_cells gs
  | some t => (board_occupied_cells gs).filter (fun k => decide (k ≠ ckey t))

/-- The head-collision avoidance set: all potential next head cells when
the planner is not strictly largest, empty otherwise.  `greedy.py` guards
this with `HEAD_TIE_AVOID = True` and `aggressive.py` with
`HEAD_BUFFER_IF_SMALLER = True`, both constant. -/
def avoidCells (gs : GameState) : List (Int × Int) :=
  if gs.you.length ≤ largest_opp gs then next_heads_of_opponents gs else []

/-- The candidate-building loop shared verbatim by the three example
bots: for each direction in order, keep it if it passes the neck check,
is in bounds, is not blocked and is not an avoided head cell. -/
def candidatesOf (head : Coord) (body : List Coord) (w h : Int)
    (blocked avoid : List (Int × Int)) : List (Move × Coord) :=
  DIRECTIONS.filterMap (fun m =>
    if is_move_safe head body m then
      let nxt : Coord := ⟨head.x + m.delta.1, head.y + m.delta.2⟩
      if in_bounds nxt w h ∧ ckey nxt ∉ blocked ∧ ckey nxt ∉ avoid then
        some (m, nxt)
      else none
    else none)

/-- The candidate list of a snapshot, as computed by all three example
bots. -/
def candidateList (gs : GameState) : List (Move × Coord) :=
  candidatesOf gs.you.head gs.you.body gs.board.width gs.board.height
    (blockedCells gs) (avoidCells gs)

/-- Python tuple comparison on `(score, move_string)` pairs:
`a > b` lexicographically, strings compared in byte order. -/
def pairGt (a b : ℚ × Move) : Bool :=
  decide (b.1 < a.1 ∨ (a.1 = b.1 ∧ b.2.rank < a.2.rank))

/-- `scored.sort(reverse=True); scored[0][1]`: the move of the maximal
`(score, move)` pair. -/
def selectBest (x : ℚ × Move) (xs : List (ℚ × Move)) : Move :=
  (xs.foldl (fun best cur => if pairGt cur best then cur else best) x).2

namespace Safe

/-- The jitter-free score of one candidate in `safe.py`:
`space * 1.0 + toward * 3.0`. -/
def scoreBase (gs : GameState) (blocked : List (Int × Int))
    (food_target : Option Coord) (nxt : Coord) : ℚ :=
  let space := flood_fill_size nxt blocked gs.board.width gs.board.height 96
  let toward : Int :=
    match food_target with
    | some ft => (manhattan gs.you.head ft : Int) - (manhattan nxt ft : Int)
    | none => 0
  (space : ℚ) * 1 + (toward : ℚ) * 3

/-- The food target of `safe.py`: nearest food when health ≤ 50 and food
exists. -/
def foodTarget (gs : GameState) : Option Coord :=
  if gs.you.health ≤ 50 ∧ gs.board.food ≠ [] then
    nearest_food gs.you.head gs.board.food
  else none

/-- `move` of `safe.py`.  `none` models the exception raised on an empty
body (`my_body[-1]`); `jit` is the per-candidate jitter. -/
def move (gs : GameState) (jit : Nat → ℚ) : Option Move :=
  match gs.you.body with
  | [] => none
  | _ :: _ =>
      match candidateList gs with
      | [] => some .down
      | c :: cs =>
          let base := fun (p : Nat × (Move × Coord)) =>
            (scoreBase gs (blockedCells gs) (foodTarget gs) p.2.2 + jit p.1, p.2.1)
          some (selectBest (base (0, c)) ((cs.enumFrom 1).map base))

end Safe

namespace Greedy

/-- `min((manhattan(oh, f) for oh in opp_heads), default=1_000_000)`. -/
def d_opp_min (opp_heads : List Coord) (f : Coord) : Nat :=
  match opp_heads with
  | [] => 1000000
  | o :: os => os.foldl (fun acc oh => min acc (manhattan oh f)) (manhattan o f)

/-- One step of the `best_winnable` scan of `greedy.py`: keep the
running best `(food, distance)` pair, replacing it when `f` is winnable
and strictly closer. -/
def winStep (head : Coord) (opp_heads : List Coord)
    (best : Option (Coord × Nat)) (f : Coord) : Option (Coord × Nat) :=
  if manhattan head f < d_opp_min opp_heads f then
    match best with
    | none => some (f, manhattan head f)
    | some (_, bd) => if manhattan head f < bd then some (f, manhattan head f) else best
  else best

/-- The `best_winnable` scan of `greedy.py`: first food (in list order)
of minimal planner distance among those strictly closer to the planner
than to every opponent head. -/
def pickWinnable (head : Coord) (opp_heads : List Coord)
    (foods : List Coord) : Option Coord :=
  (foods.foldl (winStep head opp_heads) none).map Prod.fst

/-- The target selection of `greedy.py`: a winnable food if any, else the
nearest food, `none` when there is no food. -/
def targetOf (head : Coord) (opp_heads foods : List Coord) : Option Coord :=
  if foods = [] then none
  else
    match pickWinnable head opp_heads foods with
    | some f => some f
    | none => nearest_food head foods

/-- The jitter-free score of one candidate in `greedy.py`:
`food_score + bonus - space_penalty`. -/
def scoreBase (gs : GameState) (blocked : List (Int × Int))
    (target : Option Coord) (opp_heads : List Coord) (nxt : Coord) : ℚ :=
  let w := gs.board.width
  let h := gs.board.height
  let space := flood_fill_size nxt blocked w h 120
  let foodPart : ℚ :=
    match target with
    | none => 0
    | some t =>
        let d_now := bfs_distance gs.you.head t blocked w h 120
        let d_next := bfs_distance nxt t blocked w h 120
        let food_score : ℚ :=
          match d_now, d_next with
          | some a, some b => ((a : ℚ) - (b : ℚ)) * 8
          | none, some _ => (3 / 2) * 8
          | _, _ => 0
        let bonus : ℚ :=
          if manhattan nxt t < d_opp_min opp_heads t then 10 else 0
        food_score + bonus
  let space_penalty : ℚ :=
    if space < 10 then ((10 - (space : Int) : Int) : ℚ) * (4 / 5) else 0
  foodPart - space_penalty

/-- `move` of `greedy.py`. -/
def move (gs : GameState) (jit : Nat → ℚ) : Option Move :=
  match gs.you.body with
  | [] => none
  | _ :: _ =>
      match candidateList gs with
      | [] => some .down
      | c :: cs =>
          let opp_heads := (opponentsOf gs).map Snake.head
          let target := targetOf gs.you.head opp_heads gs.board.food
          let base := fun (p : Nat × (Move × Coord)) =>
            (scoreBase gs (blockedCells gs) target opp_heads p.2.2 + jit p.1, p.2.1)
          some (selectBest (base (0, c)) ((cs.enumFrom 1).map base))

end Greedy

namespace Aggressive

/-- The `min_space` scan of the trap block: smallest flood fill over the
in-bounds, unblocked neighbours of an opponent head after the planner's
move is applied. -/
def minOppSpace (sim_blocked : List (Int × Int)) (w h : Int)
    (oh : Coord) : Option Nat :=
  DIRECTIONS.foldl (fun ms m =>
      let cand : Coord := ⟨oh.x + m.delta.1, oh.y + m.delta.2⟩
      if ¬ in_bounds cand w h then ms
      else if ckey cand ∈ sim_blocked then ms
      else
        let ssz := flood_fill_size cand sim_blocked w h 96
        match ms with
        | none => some ssz
        | some v => if ssz < v then some ssz else some v)
    none

/-- The jitter-free score of one candidate in `aggressive.py`:
`space * 1.0 + food_score + attack_score + center_bias` with
`AGGRESSION = 1.25`, `TRAP_RADIUS = 4`, `TRAP_SPACE_THRESH = 10`. -/
def scoreBase (gs : GameState) (blocked : List (Int × Int))
    (opponents : List Snake) (food_target target_head : Option Coord)
    (nxt : Coord) : ℚ :=
  let w := gs.board.width
  let h := gs.board.height
  let my_head := gs.you.head
  let space_score := flood_fill_size nxt blocked w h 96
  let food_score : ℚ :=
    match food_target with
    | none => 0
    | some ft =>
        (((manhattan my_head ft : Int) - (manhattan nxt ft : Int) : Int) : ℚ) * (5 / 2)
  let attack_near : ℚ :=
    match target_head with
    | none => 0
    | some th =>
        let d_head_now := manhattan my_head th
        let d_head_next := manhattan nxt th
        let closing := (((d_head_now : Int) - (d_head_next : Int) : Int) : ℚ) *
          (3 / 2) * (5 / 4)
        let bonus : ℚ :=
          if d_head_next = 1 then
            opponents.foldl
              (fun acc s =>
                if s.head = th ∧ s.length < gs.you.length then acc + 8 * (5 / 4)
                else acc) 0
          else 0
        closing + bonus
  let attack_trap : ℚ :=
    let sim_blocked := ckey nxt :: blocked
    opponents.foldl (fun acc opp =>
        if manhattan opp.head nxt ≤ 4 then
          match minOppSpace sim_blocked w h opp.head with
          | some v =>
              if v < 10 then
                acc + (6 + (max 0 ((gs.you.length : Int) - (opp.length : Int)) : ℚ) *
                  (1 / 2)) * (5 / 4)
              else acc
          | none => acc
        else acc)
      0
  let cx : ℚ := ((w : ℚ) - 1) / 2
  let cy : ℚ := ((h : ℚ) - 1) / 2
  let dist_center_now : ℚ := |(my_head.x : ℚ) - cx| + |(my_head.y : ℚ) - cy|
  let dist_center_next : ℚ := |(nxt.x : ℚ) - cx| + |(nxt.y : ℚ) - cy|
  let center_bias : ℚ := (dist_center_now - dist_center_next) * (1 / 5)
  (space_score : ℚ) * 1 + food_score + attack_near + attack_trap + center_bias

/-- The food target of `aggressive.py`: nearest food when health ≤ 35
(`HUNGER_THRESHOLD`) and food exists. -/
def foodTarget (gs : GameState) : Option Coord :=
  if gs.you.health ≤ 35 ∧ gs.board.food ≠ [] then
    nearest_food gs.you.head gs.board.food
  else none

/-- `move` of `aggressive.py`. -/
def move (gs : GameState) (jit : Nat → ℚ) : Option Move :=
  match gs.you.body with
  | [] => none
  | _ :: _ =>
      match candidateList gs with
      | [] => some .down
      | c :: cs =>
          let opponents := opponentsOf gs
          let target_head := nearest_food gs.you.head (opponents.map Snake.head)
          let base := fun (p : Nat × (Move × Coord)) =>
            (scoreBase gs (blockedCells gs) opponents (foodTarget gs) target_head p.2.2 +
              jit p.1, p.2.1)
          some (selectBest (base (0, c)) ((cs.enumFrom 1).map base))

end Aggressive

namespace Main

/-- Python tuple order on `heapq` entries `(dist, (x, y))`. -/
def entLt (a b : Nat × (Int × Int)) : Prop :=
  a.1 < b.1 ∨ (a.1 = b.1 ∧ (a.2.1 < b.2.1 ∨ (a.2.1 = b.2.1 ∧ a.2.2 < b.2.2)))

instance (a b : Nat × (Int × Int)) : Decidable (entLt a b) := by
  unfold entLt
  infer_instance

/-- `heapq.heappop`: remove and return the minimum entry (first minimal
occurrence; equal entries are identical tuples, so the choice is
immaterial). -/
def popMin : List (Nat × (Int × Int)) →
    Option ((Nat × (Int × Int)) × List (Nat × (Int × Int)))
  | [] => none
  | x :: xs =>
      match popMin xs with
      | none => some (x, [])
      | some (m, rest) => if entLt m x then some (m, x :: rest) else some (x, xs)

/-- Association-list lookup, modelling a Python dict keyed by cells. -/
def lookupA {β : Type} : List ((Int × Int) × β) → (Int × Int) → Option β
  | [], _ => none
  | (k, v) :: rest, q => if q = k then some v else lookupA rest q

/-- Association-list update/insert, modelling `d[k] = v`. -/
def insertA {β : Type} : List ((Int × Int) × β) → (Int × Int) → β →
    List ((Int × Int) × β)
  | [], k, v => [(k, v)]
  | (k0, v0) :: rest, k, v =>
      if k = k0 then (k0, v) :: rest else (k0, v0) :: insertA rest k v

/-- The neighbour-relaxation pass of one `dijkstra` iteration: for each
direction, if the neighbour is in bounds and not a danger and its
tentative distance improves, update `distances`, push the entry and
record `came_from`. -/
def dijUpdate (dangers : List (Int × Int)) (w h : Int) (cur : Int × Int) (d : Nat) :
    List Move → List ((Int × Int) × Nat) → List (Nat × (Int × Int)) →
      List ((Int × Int) × (Int × Int)) →
      List ((Int × Int) × Nat) × List (Nat × (Int × Int)) ×
        List ((Int × Int) × (Int × Int))
  | [], dist, queue, came => (dist, queue, came)
  | m :: ms, dist, queue, came =>
      let nb : Int × Int := (cur.1 + m.delta.1, cur.2 + m.delta.2)
      if InB w h nb ∧ nb ∉ dangers then
        let nd := d + 1
        match lookupA dist nb with
        | none =>
            dijUpdate dangers w h cur d ms (insertA dist nb nd)
              (queue ++ [(nd, nb)]) (insertA came nb cur)
        | some old =>
            if nd < old then
              dijUpdate dangers w h cur d ms (insertA dist nb nd)
                (queue ++ [(nd, nb)]) (insertA came nb cur)
            else dijUpdate dangers w h cur d ms dist queue came
      else dijUpdate dangers w h cur d ms dist queue came

/-- The path-reconstruction loop of `dijkstra` (walk `came_from` back to
`start`, then reverse): `none` models a `KeyError` or a cycle, which the
invariants rule out. -/
def reconstruct (came : List ((Int × Int) × (Int × Int))) (start : Int × Int) :
    Nat → (Int × Int) → Option (List (Int × Int))
  | 0, cur => if cur = start then some [] else none
  | fuel + 1, cur =>
      if cur = start then some []
      else
        match lookupA came cur with
        | none => none
        | some prev =>
            match reconstruct came start fuel prev with
            | none => none
            | some l => some (l ++ [cur])

/-- The main `while queue` loop of `dijkstra`.  `none` models fuel
exhaustion and is proved unreachable for the fuel used below. -/
def dijkstraAux (dangers food : List (Int × Int)) (w h : Int) (start : Int × Int) :
    Nat → List ((Int × Int) × Nat) → List (Nat × (Int × Int)) →
      List ((Int × Int) × (Int × Int)) → Option (List (Int × Int))
  | 0, _, _, _ => none
  | fuel + 1, dist, queue, came =>
      match popMin queue with
      | none => some []
      | some (e, rest) =>
          if e.2 ∈ food then reconstruct came start (w.toNat * h.toNat + 2) e.2
          else
            let st := dijUpdate dangers w h e.2 e.1 DIRECTIONS dist rest came
            dijkstraAux dangers food w h start fuel st.1 st.2.1 st.2.2

/-- `dijkstra` of `main.py`. -/
def dijkstra (board_width board_height : Int) (start : Int × Int)
    (dangers food : List (Int × Int)) : Option (List (Int × Int)) :=
  dijkstraAux dangers food board_width board_height start
    (board_width.toNat * board_height.toNat + 2) [(start, 0)] [(0, start)] []

/-- The `move_map` dict lookup; `none` models the `KeyError` on a delta
that is not a unit step. -/
def move_map (dxy : Int × Int) : Option Move :=
  if dxy = (0, 1) then some .up
  else if dxy = (0, -1) then some .down
  else if dxy = (-1, 0) then some .left
  else if dxy = (1, 0) then some .right
  else none

/-- The fallback scan of `main.py`: directions whose next cell is in
bounds and not a danger, in `up, down, left, right` order. -/
def safeMoves (head_pos : Int × Int) (dangers : List (Int × Int))
    (w h : Int) : List Move :=
  DIRECTIONS.filter (fun m =>
    decide (InB w h (head_pos.1 + m.delta.1, head_pos.2 + m.delta.2) ∧
      (head_pos.1 + m.delta.1, head_pos.2 + m.delta.2) ∉ dangers))

/-- The danger set of `main.py`: every body cell of every snake (no tail
discard). -/
def dangersOf (gs : GameState) : List (Int × Int) :=
  board_occupied_cells gs

/-- The path computed by `move` of `main.py` (`some []` when the queue
drains without reaching food). -/
def pathOf (gs : GameState) : Option (List (Int × Int)) :=
  match gs.you.body with
  | [] => none
  | b0 :: _ =>
      dijkstra gs.board.width gs.board.height (ckey b0) (dangersOf gs)
        (gs.board.food.map ckey)

/-- `move` of `main.py`.  `none` models an uncaught exception (empty
body, Dijkstra nontermination, or a `move_map` KeyError); all are proved
unreachable for well-formed snapshots. -/
def move (gs : GameState) : Option Move :=
  match gs.you.body with
  | [] => none
  | b0 :: _ =>
      let head_pos := ckey b0
      let dangers := dangersOf gs
      let w := gs.board.width
      let h := gs.board.height
      match pathOf gs with
      | none => none
      | some (next :: _) => move_map (next.1 - head_pos.1, next.2 - head_pos.2)
      | some [] =>
          match safeMoves head_pos dangers w h with
          | [] => some .up
          | m :: _ => some m

/-- The fallback list of `move` of `main.py`, as a function of the
snapshot (used in theorem statements; `move` inlines it). -/
def safeMovesOf (gs : GameState) : List Move :=
  match gs.you.body with
  | [] => []
  | b0 :: _ => safeMoves (ckey b0) (dangersOf gs) gs.board.width gs.board.height

end Main

/-! ### Specification-side predicates -/

/-- A free cell for the traversals: in bounds and not blocked. -/
def FreeCell (blocked : List (Int × Int)) (w h : Int) (k : Int × Int) : Prop :=
  InB w h k ∧ k ∉ blocked

instance (blocked : List (Int × Int)) (w h : Int) (k : Int × Int) :
    Decidable (FreeCell blocked w h k) := by
  unfold FreeCell
  infer_instance

/-- One 4-connected traversal step: to an adjacent free cell. -/
def FloodStep (blocked : List (Int × Int)) (w h : Int) (a b : Int × Int) : Prop :=
  FreeCell blocked w h b ∧ (b.1 - a.1).natAbs + (b.2 - a.2).natAbs = 1

/-- The specification's notion of reachability for the Space Estimator:
the start cell is free, and `b` is connected to it by 4-connected steps
through free in-bounds cells. -/
def Reaches (blocked : List (Int × Int)) (w h : Int) (s b : Int × Int) : Prop :=
  FreeCell blocked w h s ∧ Relation.ReflTransGen (FloodStep blocked w h) s b

/-- The four neighbour keys of a cell. -/
def neighborKeys (k : Int × Int) : List (Int × Int) :=
  DIRECTIONS.map (fun m => (k.1 + m.delta.1, k.2 + m.delta.2))

/-- One saturation round: add every free neighbour of a member that is
not yet a member. -/
def saturStep (blocked : List (Int × Int)) (w h : Int)
    (acc : List (Int × Int)) : List (Int × Int) :=
  acc ++ ((acc.flatMap neighborKeys).filter
    (fun k => decide (FreeCell blocked w h k ∧ k ∉ acc))).dedup

/-- Iterate saturation rounds to a fixpoint (the fuel provided below
always suffices). -/
def saturate (blocked : List (Int × Int)) (w h : Int) :
    Nat → List (Int × Int) → List (Int × Int)
  | 0, acc => acc
  | n + 1, acc =>
      if saturStep blocked w h acc = acc then acc
      else saturate blocked w h n (saturStep blocked w h acc)

/-- The set of cells 4-connectedly reachable from `start` over free
cells, as a duplicate-free list (empty when `start` itself is blocked or
out of bounds). -/
def reachList (start : Int × Int) (blocked : List (Int × Int))
    (w h : Int) : List (Int × Int) :=
  if FreeCell blocked w h start then
    saturate blocked w h (w.toNat * h.toNat) [start]
  else []

/-- The number of cells 4-connectedly reachable from `start`. -/
def reachCount (start : Int × Int) (blocked : List (Int × Int))
    (w h : Int) : Nat :=
  (reachList start blocked w h).length

/-- The specification's notion of a winnable food cell: the planner's
Manhattan distance to it is strictly less than every opponent head's
Manhattan distance to it. -/
def Winnable (hd : Coord) (ohs : List Coord) (f : Coord) : Prop :=
  ∀ oh ∈ ohs, manhattan hd f < manhattan oh f

/-- Rationals that are integer multiples of 1/40.  Every jitter-free
score of the three bots lies on this lattice, so distinct jitter-free
scores differ by at least 1/40 > 1/100, more than any jitter gap. -/
def Lat40 (q : ℚ) : Prop := ∃ k : ℤ, q = (k : ℚ) / 40

/-- The jitter-free scored list of `safe.py` (candidate scores in
candidate order, before the jitter term). -/
def Safe.scoredBase (gs : GameState) : List (ℚ × Move) :=
  (candidateList gs).enum.map (fun p =>
    (Safe.scoreBase gs (blockedCells gs) (Safe.foodTarget gs) p.2.2, p.2.1))

/-- The jitter-free scored list of `greedy.py`. -/
def Greedy.scoredBase (gs : GameState) : List (ℚ × Move) :=
  (candidateList gs).enum.map (fun p =>
    (Greedy.scoreBase gs (blockedCells gs)
      (Greedy.targetOf gs.you.head ((opponentsOf gs).map Snake.head) gs.board.food)
      ((opponentsOf gs).map Snake.head) p.2.2, p.2.1))

/-- The jitter-free scored list of `aggressive.py`. -/
def Aggressive.scoredBase (gs : GameState) : List (ℚ × Move) :=
  (candidateList gs).enum.map (fun p =>
    (Aggressive.scoreBase gs (blockedCells gs) (opponentsOf gs)
      (Aggressive.foodTarget gs)
      (nearest_food gs.you.head ((opponentsOf gs).map Snake.head)) p.2.2, p.2.1))

instance (hd : Coord) (ohs : List Coord) (f : Coord) :
    Decidable (Winnable hd ohs f) := by
  unfold Winnable
  infer_instance

/-- The loop invariant of `dijkstra`'s main loop.  `dist` keys are the
start plus visited free cells; every queue entry has an assigned
distance no larger than its priority; every assigned non-start distance
is at most one more than any queued priority (which makes a relaxation
of an already-assigned cell impossible, so each cell is assigned exactly
once); `came_from` covers exactly the non-start assigned cells, each
entry pointing one adjacent step down in assigned distance; and all
values are bounded by the number of assigned cells. -/
structure DijInv (dangers : List (Int × Int)) (w h : Int) (start : Int × Int)
    (dist : List ((Int × Int) × Nat)) (queue : List (Nat × (Int × Int)))
    (came : List ((Int × Int) × (Int × Int))) : Prop where
  dist_nd : (dist.map Prod.fst).Nodup
  dist_start : Main.lookupA dist start = some 0
  keys_inb : ∀ k ∈ dist.map Prod.fst, k = start ∨ (InB w h k ∧ k ∉ dangers)
  queue_dist : ∀ e ∈ queue, ∃ dv, Main.lookupA dist e.2 = some dv ∧ dv ≤ e.1
  dist_le : ∀ k, k ≠ start → ∀ dv, Main.lookupA dist k = some dv →
    ∀ e ∈ queue, dv ≤ e.1 + 1
  came_keys : ∀ k, k ∈ came.map Prod.fst ↔ (k ∈ dist.map Prod.fst ∧ k ≠ start)
  came_props : ∀ k p, Main.lookupA came k = some p →
    (k.1 - p.1).natAbs + (k.2 - p.2).natAbs = 1 ∧ InB w h k ∧ k ∉ dangers ∧
    ∃ dk dp, Main.lookupA dist k = some dk ∧ Main.lookupA dist p = some dp ∧
      dp < dk
  dist_val_bound : ∀ k dv, Main.lookupA dist k = some dv →
    dv ≤ (dist.map Prod.fst).length
  queue_val_bound : ∀ e ∈ queue, e.1 ≤ (dist.map Prod.fst).length

/-! ### Concrete snapshots used by counterexamples and witnesses -/

/-- The all-zero jitter assignment. -/
def jitZero : Nat → ℚ := fun _ => 0

/-- A constant jitter assignment of 1/200 (inside `[0, 1/100)`). -/
def jitHalf : Nat → ℚ := fun _ => 1 / 200

/-- Failing input for the head-collision-avoidance rule: an 11×11 board,
the planner (length 3) in mid-board with three free adjacent cells, and
an equal-length opponent far away at the corner. -/
def gsBug : GameState :=
  let me : Snake := ⟨"me", ⟨5, 5⟩, [⟨5, 5⟩, ⟨5, 4⟩, ⟨5, 3⟩], 3, 100⟩
  let opp : Snake := ⟨"opp", ⟨0, 0⟩, [⟨0, 0⟩, ⟨0, 1⟩, ⟨0, 2⟩], 3, 100⟩
  ⟨⟨11, 11, [me, opp], []⟩, me⟩

/-- A 1×2 board that the planner's own body fills completely: no legal
move exists and `dijkstra` finds no path. -/
def gsC3 : GameState :=
  let me : Snake := ⟨"me", ⟨0, 0⟩, [⟨0, 0⟩, ⟨0, 1⟩], 2, 100⟩
  ⟨⟨1, 2, [me], []⟩, me⟩

/-- A 3×3 board, planner of length 1 at the top edge, a longer opponent
at the corner: the Safety Filter leaves zero legal directions and the
path is empty, yet `main.py`'s fallback scan is non-empty and its first
in-bounds unoccupied direction (in up,down,left,right order) is "down". -/
def gsC3w : GameState :=
  let me : Snake := ⟨"me", ⟨1, 2⟩, [⟨1, 2⟩], 1, 100⟩
  let opp : Snake := ⟨"opp", ⟨0, 0⟩, [⟨0, 0⟩], 2, 100⟩
  ⟨⟨3, 3, [me, opp], []⟩, me⟩

/-- A 1×2 board with the head above the neck: the only panic fallback
"down" steps from the head back onto the neck. -/
def gsC6 : GameState :=
  let me : Snake := ⟨"me", ⟨0, 1⟩, [⟨0, 1⟩, ⟨0, 0⟩], 2, 100⟩
  ⟨⟨1, 2, [me], []⟩, me⟩

/-- A 3×3 board with a longer opponent: used to witness the forced panic
move. -/
def gsC2w : GameState :=
  let me : Snake := ⟨"me", ⟨1, 1⟩, [⟨1, 1⟩], 1, 90⟩
  let opp : Snake := ⟨"opp", ⟨0, 0⟩, [⟨0, 0⟩], 2, 100⟩
  ⟨⟨3, 3, [me, opp], []⟩, me⟩

/-- A 1×2 board with a lone length-1 snake: exactly one candidate
("up"), so the jitter-free scored list is a singleton and trivially has
pairwise-distinct scores. -/
def gsC10w : GameState :=
  let me : Snake := ⟨"me", ⟨0, 0⟩, [⟨0, 0⟩], 1, 100⟩
  ⟨⟨1, 2, [me], []⟩, me⟩

/-- A 1×3 board with a lone two-segment snake pointing up: exactly one
candidate ("up") survives and the fallback list is non-empty, so no panic
fallback fires. -/
def gsC6w : GameState :=
  let me : Snake := ⟨"me", ⟨0, 1⟩, [⟨0, 1⟩, ⟨0, 0⟩], 2, 100⟩
  ⟨⟨1, 3, [me], []⟩, me⟩

/-- Manhattan distance on key tuples (the `manhattan` of the bots reads
its arguments as `Coord`s; `mank (ckey a) (ckey b) = manhattan a b`). -/
def mank (a b : Int × Int) : Nat :=
  (a.1 - b.1).natAbs + (a.2 - b.2).natAbs

/-! ## Theorems -/

/-! ### Generic helper lemmas -/

theorem le_foldl_max_opp (l : List Snake) (yid : String) (a : Nat) :
    a ≤ l.foldl (fun acc t => if t.id ≠ yid then max acc t.length else acc) a := by
  induction l generalizing a with
  | nil => exact le_rfl
  | cons t ts ih =>
      simp only [List.foldl_cons]
      split
      · exact le_trans (le_max_left _ _) (ih _)
      · exact ih _

theorem length_le_foldl_max_opp (l : List Snake) (yid : String) (a : Nat) (s : Snake)
    (hs : s ∈ l) (hid : s.id ≠ yid) :
    s.length ≤ l.foldl (fun acc t => if t.id ≠ yid then max acc t.length else acc) a := by
  induction l generalizing a with
  | nil => cases hs
  | cons t ts ih =>
      rcases List.mem_cons.mp hs with rfl | hs
      · simp only [List.foldl_cons, if_pos hid]
        exact le_trans (le_max_right _ _) (le_foldl_max_opp _ _ _)
      · simp only [List.foldl_cons]
        split
        · exact ih _ hs
        · exact ih _ hs

theorem length_le_largest_opp (gs : GameState) (s : Snake)
    (hs : s ∈ gs.board.snakes) (hid : s.id ≠ gs.you.id) :
    s.length ≤ largest_opp gs :=
  length_le_foldl_max_opp _ _ _ _ hs hid

theorem mem_next_heads (gs : GameState) (s : Snake) (hs : s ∈ gs.board.snakes)
    (m : Move)
    (hb : InB gs.board.width gs.board.height
      (s.head.x + m.delta.1, s.head.y + m.delta.2)) :
    (s.head.x + m.delta.1, s.head.y + m.delta.2) ∈ next_heads_of_opponents gs := by
  unfold next_heads_of_opponents
  rw [List.mem_flatMap]
  refine ⟨s, hs, ?_⟩
  rw [List.mem_filter]
  constructor
  · rw [List.mem_map]
    exact ⟨m, by cases m <;> simp [DIRECTIONS], rfl⟩
  · exact decide_eq_true hb

theorem avoidCells_eq_next_heads (gs : GameState)
    (h : gs.you.length ≤ largest_opp gs) :
    avoidCells gs = next_heads_of_opponents gs := by
  unfold avoidCells
  rw [if_pos h]

theorem candidateList_eq_nil (gs : GameState)
    (hyou : gs.you ∈ gs.board.snakes)
    (havoid : avoidCells gs = next_heads_of_opponents gs) :
    candidateList gs = [] := by
  unfold candidateList candidatesOf
  apply List.filterMap_eq_nil_iff.mpr
  intro m _
  split
  · dsimp only
    split
    · next hcond =>
        exfalso
        obtain ⟨hbnd, _, hav⟩ := hcond
        apply hav
        rw [havoid]
        exact mem_next_heads gs gs.you hyou m hbnd
    · rfl
  · rfl

theorem safe_move_of_nil_candidates (gs : GameState) (jit : Nat → ℚ)
    (hbody : gs.you.body ≠ []) (hcand : candidateList gs = []) :
    Safe.move gs jit = some .down := by
  obtain ⟨b, bs, hb⟩ := List.exists_cons_of_ne_nil hbody
  unfold Safe.move
  rw [hb, hcand]

theorem greedy_move_of_nil_candidates (gs : GameState) (jit : Nat → ℚ)
    (hbody : gs.you.body ≠ []) (hcand : candidateList gs = []) :
    Greedy.move gs jit = some .down := by
  obtain ⟨b, bs, hb⟩ := List.exists_cons_of_ne_nil hbody
  unfold Greedy.move
  rw [hb, hcand]

theorem aggressive_move_of_nil_candidates (gs : GameState) (jit : Nat → ℚ)
    (hbody : gs.you.body ≠ []) (hcand : candidateList gs = []) :
    Aggressive.move gs jit = some .down := by
  obtain ⟨b, bs, hb⟩ := List.exists_cons_of_ne_nil hbody
  unfold Aggressive.move
  rw [hb, hcand]

/-! ### C1 -/

/-- C1: refuted by the code (code bug).  In `gsBug` the planner has three
free in-bounds adjacent cells and the only opponent (equal length, far
away at the corner) can reach none of them, yet — because
`next_heads_of_opponents` adds the neighbourhood of the planner's OWN
head to the avoidance set, contradicting its docstring — all three bots
find no candidate and return the panic move "down", whose cell is
occupied by the planner's own body. -/
theorem c1_bug_eval :
    (InB gsBug.board.width gsBug.board.height
        (gsBug.you.head.x + Move.left.delta.1, gsBug.you.head.y + Move.left.delta.2) ∧
      (gsBug.you.head.x + Move.left.delta.1, gsBug.you.head.y + Move.left.delta.2) ∉
        board_occupied_cells gsBug) ∧
    Safe.move gsBug jitZero = some .down ∧
    Greedy.move gsBug jitZero = some .down ∧
    Aggressive.move gsBug jitZero = some .down ∧
    (gsBug.you.head.x + Move.down.delta.1, gsBug.you.head.y + Move.down.delta.2) ∈
      board_occupied_cells gsBug := by
  refine ⟨by decide, by decide, by decide, by decide, by decide⟩

/-! ### C2 -/

/-- C2: confirmed.  Whenever some opposing snake is at least as long as
the planner, the avoidance set is the full next-heads set, which contains
every in-bounds cell adjacent to the planner's own head (the planner's
snake is itself in `board["snakes"]`); hence no candidate survives and
all three example bots return the panic fallback "down", whatever jitter
is drawn and however much free space exists. -/
theorem c2_equal_or_larger_opponent_forces_down (gs : GameState)
    (jit1 jit2 jit3 : Nat → ℚ) (hbody : gs.you.body ≠ [])
    (hyou : gs.you ∈ gs.board.snakes)
    (hopp : ∃ s ∈ gs.board.snakes, s.id ≠ gs.you.id ∧ gs.you.length ≤ s.length) :
    Safe.move gs jit1 = some .down ∧ Greedy.move gs jit2 = some .down ∧
      Aggressive.move gs jit3 = some .down := by
  obtain ⟨s, hs, hid, hlen⟩ := hopp
  have hcand : candidateList gs = [] :=
    candidateList_eq_nil gs hyou (avoidCells_eq_next_heads gs
      (le_trans hlen (length_le_largest_opp gs s hs hid)))
  exact ⟨safe_move_of_nil_candidates gs jit1 hbody hcand,
    greedy_move_of_nil_candidates gs jit2 hbody hcand,
    aggressive_move_of_nil_candidates gs jit3 hbody hcand⟩

/-- Witness for C2 at the concrete snapshot `gsC2w` (a longer opponent
exists, plenty of free space, and all three bots still answer "down"). -/
theorem c2_witness :
    Safe.move gsC2w jitZero = some .down ∧ Greedy.move gsC2w jitZero = some .down ∧
      Aggressive.move gsC2w jitZero = some .down :=
  c2_equal_or_larger_opponent_forces_down gsC2w jitZero jitZero jitZero
    (by decide) (by decide)
    ⟨⟨"opp", ⟨0, 0⟩, [⟨0, 0⟩], 2, 100⟩, by decide, by decide, by decide⟩

/-! ### C3 -/

/-- C3 counterexample: on `gsC3` the Safety Filter leaves zero legal
directions and `dijkstra` returns the empty path, yet `main.py` returns
"up", not the claimed fixed fallback "down". -/
theorem c3_counterexample :
    Main.pathOf gsC3 = some [] ∧ Main.safeMovesOf gsC3 = [] ∧
      candidateList gsC3 = [] ∧ Main.move gsC3 = some .up ∧
      Main.move gsC3 ≠ some .down := by
  refine ⟨by decide, by decide, by decide, by decide, by decide⟩

/-! ### C6 -/

/-- C6 counterexample: on `gsC6` (head directly above the neck on a full
1×2 board) `safe.py` has no candidate and its panic fallback returns
"down", whose resulting cell IS the second body segment — so the variants
can return the reversal direction. -/
theorem c6_counterexample :
    gsC6.you.body = [⟨0, 1⟩, ⟨0, 0⟩] ∧
      Safe.move gsC6 jitZero = some .down ∧
      (gsC6.you.head.x + Move.down.delta.1, gsC6.you.head.y + Move.down.delta.2) =
        ckey ⟨0, 0⟩ := by
  refine ⟨by decide, by decide, by decide⟩

/-! ### C7 -/

/-- C7 counterexample: with the head at (0,0) and the neck at (1,0), the
neck lies to the RIGHT of the head, so the reversal rule leaves "left"
marked safe — the claim that `is_move_safe["left"]` is set to `False` is
wrong. -/
theorem c7_counterexample :
    is_move_safe ⟨0, 0⟩ [⟨0, 0⟩, ⟨1, 0⟩] .left = true := by
  decide

/-- C7 amended: in that snapshot the reversal rule marks "right" (the
direction from the head back onto the neck) as unsafe, and leaves the
other three directions marked safe. -/
theorem c7_amended :
    is_move_safe ⟨0, 0⟩ [⟨0, 0⟩, ⟨1, 0⟩] .right = false ∧
      is_move_safe ⟨0, 0⟩ [⟨0, 0⟩, ⟨1, 0⟩] .left = true ∧
      is_move_safe ⟨0, 0⟩ [⟨0, 0⟩, ⟨1, 0⟩] .up = true ∧
      is_move_safe ⟨0, 0⟩ [⟨0, 0⟩, ⟨1, 0⟩] .down = true := by
  decide

theorem main_move_fallback_up (gs : GameState) (hbody : gs.you.body ≠ [])
    (hpath : Main.pathOf gs = some []) (hsafe : Main.safeMovesOf gs = []) :
    Main.move gs = some .up := by
  obtain ⟨b, bs, hb⟩ := List.exists_cons_of_ne_nil hbody
  unfold Main.safeMovesOf at hsafe
  rw [hb] at hsafe
  dsimp only at hsafe
  unfold Main.move
  rw [hb, hpath]
  dsimp only
  rw [hsafe]

theorem main_move_fallback_first (gs : GameState) (hbody : gs.you.body ≠ [])
    (hpath : Main.pathOf gs = some []) (m : Move) (ms : List Move)
    (hsafe : Main.safeMovesOf gs = m :: ms) :
    Main.move gs = some m := by
  obtain ⟨b, bs, hb⟩ := List.exists_cons_of_ne_nil hbody
  unfold Main.safeMovesOf at hsafe
  rw [hb] at hsafe
  dsimp only at hsafe
  unfold Main.move
  rw [hb, hpath]
  dsimp only
  rw [hsafe]

/-- C3 amended: when the Safety Filter leaves zero legal directions and
the path finder returns the empty path, the three example bots return
the fixed fallback "down" without scoring, while `main.py` instead
returns the first direction of its fallback scan — the first direction
(in up,down,left,right order) whose cell is in bounds and not on any
snake body — and only when that scan is empty the fixed fallback "up",
never "down" as its fixed fallback. -/
theorem c3_amended (gs : GameState) (jit1 jit2 jit3 : Nat → ℚ)
    (hbody : gs.you.body ≠ []) (hcand : candidateList gs = [])
    (hpath : Main.pathOf gs = some []) :
    Safe.move gs jit1 = some .down ∧ Greedy.move gs jit2 = some .down ∧
      Aggressive.move gs jit3 = some .down ∧
      (Main.safeMovesOf gs = [] → Main.move gs = some .up) ∧
      (∀ m ms, Main.safeMovesOf gs = m :: ms → Main.move gs = some m) :=
  ⟨safe_move_of_nil_candidates gs jit1 hbody hcand,
    greedy_move_of_nil_candidates gs jit2 hbody hcand,
    aggressive_move_of_nil_candidates gs jit3 hbody hcand,
    fun hsafe => main_move_fallback_up gs hbody hpath hsafe,
    fun m ms hsafe => main_move_fallback_first gs hbody hpath m ms hsafe⟩

/-- Witness for the amended C3 at two concrete snapshots: on `gsC3` the
fallback scan is empty and `main.py` returns "up"; on `gsC3w` the scan
starts with "down" (the first in-bounds unoccupied direction) and
`main.py` returns it, while the variants panic with "down". -/
theorem c3_amended_witness :
    (Safe.move gsC3 jitZero = some .down ∧ Main.safeMovesOf gsC3 = [] ∧
      Main.move gsC3 = some .up) ∧
    (Aggressive.move gsC3w jitZero = some .down ∧
      Main.safeMovesOf gsC3w = .down :: [.left, .right] ∧
      Main.move gsC3w = some .down) :=
  ⟨⟨(c3_amended gsC3 jitZero jitZero jitZero (by decide) (by decide)
      (by decide)).1, by decide,
    (c3_amended gsC3 jitZero jitZero jitZero (by decide) (by decide)
      (by decide)).2.2.2.1 (by decide)⟩,
   ⟨(c3_amended gsC3w jitZero jitZero jitZero (by decide) (by decide)
      (by decide)).2.2.1, by decide,
    (c3_amended gsC3w jitZero jitZero jitZero (by decide) (by decide)
      (by decide)).2.2.2.2 .down [.left, .right] (by decide)⟩⟩

/-! ### C9 -/

theorem foldl_min_le_init (f : Coord) (l : List Coord) (a : Nat) :
    l.foldl (fun acc oh => min acc (manhattan oh f)) a ≤ a := by
  induction l generalizing a with
  | nil => exact le_rfl
  | cons o os ih => exact le_trans (ih _) (min_le_left _ _)

theorem foldl_min_le_mem (f : Coord) (l : List Coord) (a : Nat) (oh : Coord)
    (h : oh ∈ l) :
    l.foldl (fun acc oh => min acc (manhattan oh f)) a ≤ manhattan oh f := by
  induction l generalizing a with
  | nil => cases h
  | cons o os ih =>
      rcases List.mem_cons.mp h with rfl | h
      · exact le_trans (foldl_min_le_init f os _) (min_le_right _ _)
      · exact ih _ h

theorem foldl_min_attained (f : Coord) (l : List Coord) (a : Nat) :
    l.foldl (fun acc oh => min acc (manhattan oh f)) a = a ∨
      ∃ oh ∈ l, l.foldl (fun acc oh => min acc (manhattan oh f)) a = manhattan oh f := by
  induction l generalizing a with
  | nil => exact Or.inl rfl
  | cons o os ih =>
      rw [List.foldl_cons]
      rcases ih (min a (manhattan o f)) with h | ⟨oh, hm, he⟩
      · rcases le_total a (manhattan o f) with hle | hle
        · left
          rw [h, min_eq_left hle]
        · right
          exact ⟨o, List.mem_cons_self _ _, by rw [h, min_eq_right hle]⟩
      · right
        exact ⟨oh, List.mem_cons_of_mem _ hm, he⟩

theorem d_opp_min_cons (o : Coord) (os : List Coord) (f : Coord) :
    Greedy.d_opp_min (o :: os) f =
      os.foldl (fun acc oh => min acc (manhattan oh f)) (manhattan o f) := rfl

theorem winnable_iff_lt_d_opp_min (hd : Coord) (o : Coord) (os : List Coord)
    (f : Coord) :
    Winnable hd (o :: os) f ↔ manhattan hd f < Greedy.d_opp_min (o :: os) f := by
  rw [d_opp_min_cons]
  constructor
  · intro hw
    rcases foldl_min_attained f os (manhattan o f) with h | ⟨oh, hm, he⟩
    · rw [h]
      exact hw o (List.mem_cons_self _ _)
    · rw [he]
      exact hw oh (List.mem_cons_of_mem _ hm)
  · intro hlt oh hm
    rcases List.mem_cons.mp hm with rfl | hm
    · exact lt_of_lt_of_le hlt (foldl_min_le_init f os _)
    · exact lt_of_lt_of_le hlt (foldl_min_le_mem f os _ oh hm)

theorem winStep_eq_none (hd : Coord) (ohs : List Coord)
    (acc : Option (Coord × Nat)) (f : Coord)
    (h : Greedy.winStep hd ohs acc f = none) :
    acc = none ∧ ¬ manhattan hd f < Greedy.d_opp_min ohs f := by
  unfold Greedy.winStep at h
  by_cases hp : manhattan hd f < Greedy.d_opp_min ohs f
  · rw [if_pos hp] at h
    cases acc with
    | none => cases h
    | some q =>
        by_cases hq : manhattan hd f < q.2
        · simp only [hq, if_pos] at h
          cases h
        · simp only [hq, if_neg, if_false] at h
          cases h
  · rw [if_neg hp] at h
    exact ⟨h, hp⟩

theorem winStep_eq_some (hd : Coord) (ohs : List Coord)
    (acc : Option (Coord × Nat)) (f : Coord) (p : Coord × Nat)
    (h : Greedy.winStep hd ohs acc f = some p) :
    (¬ manhattan hd f < Greedy.d_opp_min ohs f ∧ acc = some p) ∨
    (manhattan hd f < Greedy.d_opp_min ohs f ∧ acc = none ∧
      p = (f, manhattan hd f)) ∨
    (manhattan hd f < Greedy.d_opp_min ohs f ∧ ∃ q, acc = some q ∧
      ((manhattan hd f < q.2 ∧ p = (f, manhattan hd f)) ∨
        (¬ manhattan hd f < q.2 ∧ p = q))) := by
  unfold Greedy.winStep at h
  by_cases hp : manhattan hd f < Greedy.d_opp_min ohs f
  · rw [if_pos hp] at h
    cases acc with
    | none =>
        refine Or.inr (Or.inl ⟨hp, rfl, ?_⟩)
        cases h
        rfl
    | some q =>
        refine Or.inr (Or.inr ⟨hp, q, rfl, ?_⟩)
        by_cases hq : manhattan hd f < q.2
        · simp only [hq, if_pos] at h
          cases h
          exact Or.inl ⟨hq, rfl⟩
        · simp only [hq, if_neg, if_false] at h
          cases h
          exact Or.inr ⟨hq, rfl⟩
  · rw [if_neg hp] at h
    exact Or.inl ⟨hp, h⟩

theorem winFold_char (hd : Coord) (ohs : List Coord) (l : List Coord) :
    ∀ acc : Option (Coord × Nat),
      (∀ p, acc = some p → p.2 = manhattan hd p.1) →
      ((l.foldl (Greedy.winStep hd ohs) acc = none →
          acc = none ∧ ∀ f ∈ l, ¬ manhattan hd f < Greedy.d_opp_min ohs f) ∧
        (∀ pr, l.foldl (Greedy.winStep hd ohs) acc = some pr →
          pr.2 = manhattan hd pr.1 ∧
          (acc = some pr ∨
            (pr.1 ∈ l ∧ manhattan hd pr.1 < Greedy.d_opp_min ohs pr.1)) ∧
          (∀ g ∈ l, manhattan hd g < Greedy.d_opp_min ohs g →
            pr.2 ≤ manhattan hd g) ∧
          (∀ p, acc = some p → pr.2 ≤ p.2))) := by
  induction l with
  | nil =>
      intro acc hacc
      constructor
      · intro hres
        exact ⟨hres, by simp⟩
      · intro pr hres
        rw [List.foldl_nil] at hres
        refine ⟨hacc pr hres, Or.inl hres, by simp, fun p hp => ?_⟩
        rw [hres] at hp
        rw [Option.some.inj hp]
  | cons f fs ih =>
      intro acc hacc
      have hacc2 : ∀ p, Greedy.winStep hd ohs acc f = some p →
          p.2 = manhattan hd p.1 := by
        intro p hp
        rcases winStep_eq_some hd ohs acc f p hp with ⟨_, ha⟩ | ⟨_, _, hpe⟩ |
          ⟨_, q, haq, hca⟩
        · exact hacc p ha
        · rw [hpe]
        · rcases hca with ⟨_, hpe⟩ | ⟨_, hpe⟩
          · rw [hpe]
          · rw [hpe]
            exact hacc q haq
      have H := ih (Greedy.winStep hd ohs acc f) hacc2
      rw [List.foldl_cons]
      constructor
      · intro hres
        obtain ⟨hnone, hall⟩ := H.1 hres
        obtain ⟨ha, hnp⟩ := winStep_eq_none hd ohs acc f hnone
        refine ⟨ha, fun g hg => ?_⟩
        rcases List.mem_cons.mp hg with rfl | hg
        · exact hnp
        · exact hall g hg
      · intro pr hres
        obtain ⟨hman, horig, hmin, hle⟩ := H.2 pr hres
        refine ⟨hman, ?_, ?_, ?_⟩
        · rcases horig with ha | ⟨hmem, hP⟩
          · rcases winStep_eq_some hd ohs acc f pr ha with ⟨_, haa⟩ |
              ⟨hP, _, hpe⟩ | ⟨hP, q, haq, hca⟩
            · exact Or.inl haa
            · subst hpe
              exact Or.inr ⟨List.mem_cons_self _ _, hP⟩
            · rcases hca with ⟨_, hpe⟩ | ⟨_, hpe⟩
              · subst hpe
                exact Or.inr ⟨List.mem_cons_self _ _, hP⟩
              · subst hpe
                exact Or.inl haq
          · exact Or.inr ⟨List.mem_cons_of_mem _ hmem, hP⟩
        · intro g hg hPg
          rcases List.mem_cons.mp hg with rfl | hg
          · cases hacca : acc with
            | none =>
                have hws : Greedy.winStep hd ohs acc g =
                    some (g, manhattan hd g) := by
                  unfold Greedy.winStep
                  rw [hacca, if_pos hPg]
                exact hle _ hws
            | some q =>
                by_cases hq : manhattan hd g < q.2
                · have hws : Greedy.winStep hd ohs acc g =
                      some (g, manhattan hd g) := by
                    unfold Greedy.winStep
                    rw [hacca, if_pos hPg]
                    simp [hq]
                  exact hle _ hws
                · have hws : Greedy.winStep hd ohs acc g = some q := by
                    unfold Greedy.winStep
                    rw [hacca, if_pos hPg]
                    simp [hq]
                  exact le_trans (hle _ hws) (le_of_not_lt hq)
          · exact hmin g hg hPg
        · intro p hap
          by_cases hPf : manhattan hd f < Greedy.d_opp_min ohs f
          · by_cases hq : manhattan hd f < p.2
            · have hws : Greedy.winStep hd ohs acc f =
                  some (f, manhattan hd f) := by
                unfold Greedy.winStep
                rw [if_pos hPf, hap]
                simp [hq]
              exact le_trans (hle _ hws) (le_of_lt hq)
            · have hws : Greedy.winStep hd ohs acc f = some p := by
                unfold Greedy.winStep
                rw [if_pos hPf, hap]
                simp [hq]
              exact hle _ hws
          · have hws : Greedy.winStep hd ohs acc f = some p := by
              unfold Greedy.winStep
              rw [if_neg hPf]
              exact hap
            exact hle _ hws

theorem nearest_fold_spec (hd : Coord) (fs : List Coord) :
    ∀ f : Coord,
      (fs.foldl (fun best g =>
          if manhattan hd g < manhattan hd best then g else best) f) ∈ f :: fs ∧
      manhattan hd (fs.foldl (fun best g =>
          if manhattan hd g < manhattan hd best then g else best) f) ≤
        manhattan hd f ∧
      ∀ g ∈ fs, manhattan hd (fs.foldl (fun best g =>
          if manhattan hd g < manhattan hd best then g else best) f) ≤
        manhattan hd g := by
  induction fs with
  | nil =>
      intro f
      simp
  | cons g gs ih =>
      intro f
      rw [List.foldl_cons]
      by_cases h : manhattan hd g < manhattan hd f
      · rw [if_pos h]
        obtain ⟨h1, h2, h3⟩ := ih g
        refine ⟨?_, le_trans h2 (le_of_lt h), fun g2 hg2 => ?_⟩
        · rcases List.mem_cons.mp h1 with he | hm
          · rw [he]
            exact List.mem_cons_of_mem _ (List.mem_cons_self _ _)
          · exact List.mem_cons_of_mem _ (List.mem_cons_of_mem _ hm)
        · rcases List.mem_cons.mp hg2 with rfl | hg2
          · exact h2
          · exact h3 g2 hg2
      · rw [if_neg h]
        obtain ⟨h1, h2, h3⟩ := ih f
        refine ⟨?_, h2, fun g2 hg2 => ?_⟩
        · rcases List.mem_cons.mp h1 with he | hm
          · rw [he]
            exact List.mem_cons_self _ _
          · exact List.mem_cons_of_mem _ (List.mem_cons_of_mem _ hm)
        · rcases List.mem_cons.mp hg2 with rfl | hg2
          · exact le_trans h2 (le_of_not_lt h)
          · exact h3 g2 hg2

theorem nearest_food_spec (hd : Coord) (f : Coord) (fs : List Coord) :
    ∃ g, nearest_food hd (f :: fs) = some g ∧ g ∈ f :: fs ∧
      ∀ g2 ∈ f :: fs, manhattan hd g ≤ manhattan hd g2 := by
  obtain ⟨h1, h2, h3⟩ := nearest_fold_spec hd fs f
  refine ⟨_, rfl, h1, fun g2 hg2 => ?_⟩
  rcases List.mem_cons.mp hg2 with rfl | hg2
  · exact h2
  · exact h3 g2 hg2


/-- C9: confirmed.  For a non-empty food list, whenever some food is
winnable (strictly closer to the planner than to every opponent head by
Manhattan distance), `greedy.py`'s target is a winnable food of minimal
planner distance; otherwise it is a food of minimal planner distance. -/
theorem c9_winnable_food_selection (hd : Coord) (ohs foods : List Coord)
    (hf : foods ≠ []) :
    ((∃ f ∈ foods, Winnable hd ohs f) →
      ∃ f, Greedy.targetOf hd ohs foods = some f ∧ f ∈ foods ∧
        Winnable hd ohs f ∧
        ∀ g ∈ foods, Winnable hd ohs g → manhattan hd f ≤ manhattan hd g) ∧
    ((¬ ∃ f ∈ foods, Winnable hd ohs f) →
      ∃ f, Greedy.targetOf hd ohs foods = some f ∧ f ∈ foods ∧
        ∀ g ∈ foods, manhattan hd f ≤ manhattan hd g) := by
  obtain ⟨f0, fs0, hfe⟩ := List.exists_cons_of_ne_nil hf
  subst hfe
  have hchar := winFold_char hd ohs (f0 :: fs0) none (by intro p hp; cases hp)
  have htarget : Greedy.targetOf hd ohs (f0 :: fs0) =
      match Greedy.pickWinnable hd ohs (f0 :: fs0) with
      | some f => some f
      | none => nearest_food hd (f0 :: fs0) := by
    unfold Greedy.targetOf
    rw [if_neg hf]
  constructor
  · rintro ⟨fw, hfwm, hfww⟩
    cases ohs with
    | nil =>
        by_cases hP : ∃ f ∈ f0 :: fs0, manhattan hd f < Greedy.d_opp_min [] f
        · cases hfold : (f0 :: fs0).foldl (Greedy.winStep hd []) none with
          | none =>
              obtain ⟨-, hall⟩ := hchar.1 hfold
              obtain ⟨f1, hm1, hp1⟩ := hP
              exact absurd hp1 (hall f1 hm1)
          | some pr =>
              obtain ⟨hman, horig, hmin, -⟩ := hchar.2 pr hfold
              have hpick : Greedy.pickWinnable hd [] (f0 :: fs0) = some pr.1 := by
                unfold Greedy.pickWinnable
                rw [hfold]
                rfl
              rcases horig with he | ⟨hm, hPpr⟩
              · cases he
              refine ⟨pr.1, by rw [htarget, hpick], hm, fun oh hoh => absurd hoh
                (List.not_mem_nil _), fun g hg _ => ?_⟩
              by_cases hPg : manhattan hd g < Greedy.d_opp_min [] g
              · rw [← hman]
                exact hmin g hg hPg
              · have h6 : (1000000 : Nat) ≤ manhattan hd g := le_of_not_lt hPg
                have h7 : manhattan hd pr.1 < 1000000 := hPpr
                exact le_of_lt (lt_of_lt_of_le h7 h6)
        · have hfold2 : (f0 :: fs0).foldl (Greedy.winStep hd []) none = none := by
            cases hfold : (f0 :: fs0).foldl (Greedy.winStep hd []) none with
            | none => rfl
            | some pr =>
                obtain ⟨-, horig, -, -⟩ := hchar.2 pr hfold
                rcases horig with he | ⟨hm, hPpr⟩
                · cases he
                · exact absurd ⟨pr.1, hm, hPpr⟩ hP
          have hpick : Greedy.pickWinnable hd [] (f0 :: fs0) = none := by
            unfold Greedy.pickWinnable
            rw [hfold2]
            rfl
          obtain ⟨g, hgn, hgm, hgmin⟩ := nearest_food_spec hd f0 fs0
          refine ⟨g, ?_, hgm, fun oh hoh => absurd hoh (List.not_mem_nil _),
            fun g2 hg2 _ => hgmin g2 hg2⟩
          rw [htarget, hpick]
          exact hgn
    | cons o os =>
        have hPfw : manhattan hd fw < Greedy.d_opp_min (o :: os) fw :=
          (winnable_iff_lt_d_opp_min hd o os fw).mp hfww
        cases hfold : (f0 :: fs0).foldl (Greedy.winStep hd (o :: os)) none with
        | none =>
            obtain ⟨-, hall⟩ := hchar.1 hfold
            exact absurd hPfw (hall fw hfwm)
        | some pr =>
            obtain ⟨hman, horig, hmin, -⟩ := hchar.2 pr hfold
            have hpick : Greedy.pickWinnable hd (o :: os) (f0 :: fs0) =
                some pr.1 := by
              unfold Greedy.pickWinnable
              rw [hfold]
              rfl
            rcases horig with he | ⟨hm, hPpr⟩
            · cases he
            refine ⟨pr.1, by rw [htarget, hpick], hm,
              (winnable_iff_lt_d_opp_min hd o os pr.1).mpr hPpr,
              fun g hg hwg => ?_⟩
            rw [← hman]
            exact hmin g hg ((winnable_iff_lt_d_opp_min hd o os g).mp hwg)
  · intro hnw
    cases ohs with
    | nil =>
        exact absurd ⟨f0, List.mem_cons_self _ _,
          fun oh hoh => absurd hoh (List.not_mem_nil _)⟩ hnw
    | cons o os =>
        have hfold2 : (f0 :: fs0).foldl (Greedy.winStep hd (o :: os)) none =
            none := by
          cases hfold : (f0 :: fs0).foldl (Greedy.winStep hd (o :: os)) none with
          | none => rfl
          | some pr =>
              obtain ⟨-, horig, -, -⟩ := hchar.2 pr hfold
              rcases horig with he | ⟨hm, hPpr⟩
              · cases he
              · exact absurd ⟨pr.1, hm,
                  (winnable_iff_lt_d_opp_min hd o os pr.1).mpr hPpr⟩ hnw
        have hpick : Greedy.pickWinnable hd (o :: os) (f0 :: fs0) = none := by
          unfold Greedy.pickWinnable
          rw [hfold2]
          rfl
        obtain ⟨g, hgn, hgm, hgmin⟩ := nearest_food_spec hd f0 fs0
        refine ⟨g, ?_, hgm, hgmin⟩
        rw [htarget, hpick]
        exact hgn

/-- Witness for C9 at the concrete inputs of the specification's
scenario: planner head (0,0), a single opponent head (5,5), food at
(1,0); the food is winnable and is selected as target. -/
theorem c9_witness :
    Greedy.targetOf ⟨0, 0⟩ [⟨5, 5⟩] [⟨1, 0⟩] = some ⟨1, 0⟩ ∧
      (∃ f ∈ [(⟨1, 0⟩ : Coord)], Winnable ⟨0, 0⟩ [⟨5, 5⟩] f) ∧
      (∃ f, Greedy.targetOf ⟨0, 0⟩ [⟨5, 5⟩] [⟨1, 0⟩] = some f ∧
        f ∈ [(⟨1, 0⟩ : Coord)] ∧ Winnable ⟨0, 0⟩ [⟨5, 5⟩] f ∧
        ∀ g ∈ [(⟨1, 0⟩ : Coord)], Winnable ⟨0, 0⟩ [⟨5, 5⟩] g →
          manhattan ⟨0, 0⟩ f ≤ manhattan ⟨0, 0⟩ g) :=
  ⟨by decide, by decide,
    (c9_winnable_food_selection ⟨0, 0⟩ [⟨5, 5⟩] [⟨1, 0⟩] (by decide)).1
      (by decide)⟩

/-! ### C5: the Space Estimator -/

theorem adj_iff (a b : Int × Int) :
    (b.1 - a.1).natAbs + (b.2 - a.2).natAbs = 1 ↔
      ∃ m : Move, b = (a.1 + m.delta.1, a.2 + m.delta.2) := by
  obtain ⟨a1, a2⟩ := a
  obtain ⟨b1, b2⟩ := b
  constructor
  · intro hsum
    have h2 : (b1 = a1 + 1 ∧ b2 = a2) ∨ (b1 = a1 - 1 ∧ b2 = a2) ∨
        (b1 = a1 ∧ b2 = a2 + 1) ∨ (b1 = a1 ∧ b2 = a2 - 1) := by
      simp only at hsum
      omega
    rcases h2 with ⟨hx, hy⟩ | ⟨hx, hy⟩ | ⟨hx, hy⟩ | ⟨hx, hy⟩
    · exact ⟨.right, by simp only [Move.delta, Prod.mk.injEq]; omega⟩
    · exact ⟨.left, by simp only [Move.delta, Prod.mk.injEq]; omega⟩
    · exact ⟨.up, by simp only [Move.delta, Prod.mk.injEq]; omega⟩
    · exact ⟨.down, by simp only [Move.delta, Prod.mk.injEq]; omega⟩
  · rintro ⟨m, hm⟩
    rw [Prod.mk.injEq] at hm
    obtain ⟨h1, h2⟩ := hm
    cases m <;> simp only [Move.delta] at h1 h2 <;> omega

theorem nodup_subset_length_le {l1 l2 : List (Int × Int)} (h1 : l1.Nodup)
    (hs : ∀ x ∈ l1, x ∈ l2) : l1.length ≤ l2.length := by
  calc l1.length = l1.toFinset.card := (List.toFinset_card_of_nodup h1).symm
    _ ≤ l2.toFinset.card := Finset.card_le_card (fun x hx =>
        List.mem_toFinset.mpr (hs x (List.mem_toFinset.mp hx)))
    _ ≤ l2.length := l2.toFinset_card_le

theorem inb_length_le_bound {l : List (Int × Int)} (w h : Int)
    (hn : l.Nodup) (hin : ∀ x ∈ l, InB w h x) :
    l.length ≤ w.toNat * h.toNat := by
  calc l.length = l.toFinset.card := (List.toFinset_card_of_nodup hn).symm
    _ ≤ ((Finset.Ico 0 w) ×ˢ (Finset.Ico 0 h)).card := by
        apply Finset.card_le_card
        intro x hx
        obtain ⟨hx1, hx2, hx3, hx4⟩ := hin x (List.mem_toFinset.mp hx)
        rw [Finset.mem_product, Finset.mem_Ico, Finset.mem_Ico]
        exact ⟨⟨hx1, hx2⟩, hx3, hx4⟩
    _ = w.toNat * h.toNat := by
        rw [Finset.card_product, Int.card_Ico, Int.card_Ico]
        simp

theorem mem_saturStep_self (blocked : List (Int × Int)) (w h : Int)
    (acc : List (Int × Int)) (x : Int × Int) (hx : x ∈ acc) :
    x ∈ saturStep blocked w h acc := by
  unfold saturStep
  exact List.mem_append_left _ hx

theorem mem_saturStep_iff (blocked : List (Int × Int)) (w h : Int)
    (acc : List (Int × Int)) (x : Int × Int) :
    x ∈ saturStep blocked w h acc ↔
      x ∈ acc ∨ (FreeCell blocked w h x ∧ x ∉ acc ∧
        ∃ a ∈ acc, (x.1 - a.1).natAbs + (x.2 - a.2).natAbs = 1) := by
  unfold saturStep
  rw [List.mem_append, List.mem_dedup, List.mem_filter]
  constructor
  · rintro (hx | ⟨hx, hcond⟩)
    · exact Or.inl hx
    · rw [decide_eq_true_iff] at hcond
      obtain ⟨a, ha, hmem⟩ := List.mem_flatMap.mp hx
      refine Or.inr ⟨hcond.1, hcond.2, a, ha, ?_⟩
      unfold neighborKeys at hmem
      obtain ⟨m, _, hm⟩ := List.mem_map.mp hmem
      exact (adj_iff a x).mpr ⟨m, hm.symm⟩
  · rintro (hx | ⟨hfree, hnot, a, ha, hadj⟩)
    · exact Or.inl hx
    · right
      refine ⟨?_, decide_eq_true ⟨hfree, hnot⟩⟩
      apply List.mem_flatMap.mpr
      obtain ⟨m, hm⟩ := (adj_iff a x).mp hadj
      exact ⟨a, ha, by
        unfold neighborKeys
        exact List.mem_map.mpr ⟨m, by cases m <;> simp [DIRECTIONS], hm.symm⟩⟩

theorem saturStep_nodup (blocked : List (Int × Int)) (w h : Int)
    (acc : List (Int × Int)) (hn : acc.Nodup) :
    (saturStep blocked w h acc).Nodup := by
  unfold saturStep
  apply List.Nodup.append hn (List.nodup_dedup _)
  intro x hx hx2
  obtain ⟨-, hcond⟩ := List.mem_filter.mp (List.mem_dedup.mp hx2)
  rw [decide_eq_true_iff] at hcond
  exact hcond.2 hx

theorem saturStep_eq_of_tail_nil (blocked : List (Int × Int)) (w h : Int)
    (acc : List (Int × Int))
    (hD : ((acc.flatMap neighborKeys).filter
      (fun k => decide (FreeCell blocked w h k ∧ k ∉ acc))).dedup = []) :
    saturStep blocked w h acc = acc := by
  unfold saturStep
  rw [hD, List.append_nil]

theorem saturate_sub (blocked : List (Int × Int)) (w h : Int) :
    ∀ (n : Nat) (acc : List (Int × Int)) (x : Int × Int), x ∈ acc →
      x ∈ saturate blocked w h n acc := by
  intro n
  induction n with
  | zero => exact fun acc x hx => hx
  | succ n ih =>
      intro acc x hx
      unfold saturate
      split
      · exact hx
      · exact ih _ x (mem_saturStep_self blocked w h acc x hx)

theorem saturate_nodup (blocked : List (Int × Int)) (w h : Int) :
    ∀ (n : Nat) (acc : List (Int × Int)), acc.Nodup →
      (saturate blocked w h n acc).Nodup := by
  intro n
  induction n with
  | zero => exact fun acc hn => hn
  | succ n ih =>
      intro acc hn
      unfold saturate
      split
      · exact hn
      · exact ih _ (saturStep_nodup blocked w h acc hn)

theorem saturate_sound (blocked : List (Int × Int)) (w h : Int)
    (start : Int × Int) :
    ∀ (n : Nat) (acc : List (Int × Int)),
      (∀ x ∈ acc, FreeCell blocked w h x ∧
        Relation.ReflTransGen (FloodStep blocked w h) start x) →
      ∀ x ∈ saturate blocked w h n acc, FreeCell blocked w h x ∧
        Relation.ReflTransGen (FloodStep blocked w h) start x := by
  intro n
  induction n with
  | zero => exact fun acc hacc => hacc
  | succ n ih =>
      intro acc hacc
      unfold saturate
      split
      · exact hacc
      · apply ih
        intro x hx
        rcases (mem_saturStep_iff blocked w h acc x).mp hx with hx | ⟨hf, -, a, ha, hadj⟩
        · exact hacc x hx
        · exact ⟨hf, Relation.ReflTransGen.tail (hacc a ha).2 ⟨hf, hadj⟩⟩

theorem saturate_fix (blocked : List (Int × Int)) (w h : Int) :
    ∀ (n : Nat) (acc : List (Int × Int)), acc.Nodup →
      (∀ x ∈ acc, InB w h x) → w.toNat * h.toNat ≤ n + acc.length →
      saturStep blocked w h (saturate blocked w h n acc) =
        saturate blocked w h n acc := by
  intro n
  induction n with
  | zero =>
      intro acc hn hin hb
      by_cases hD : ((acc.flatMap neighborKeys).filter
          (fun k => decide (FreeCell blocked w h k ∧ k ∉ acc))).dedup = []
      · exact saturStep_eq_of_tail_nil blocked w h acc hD
      · exfalso
        have hlen : (saturStep blocked w h acc).length ≤ w.toNat * h.toNat := by
          apply inb_length_le_bound w h (saturStep_nodup blocked w h acc hn)
          intro x hx
          rcases (mem_saturStep_iff blocked w h acc x).mp hx with hx | ⟨hf, -, -⟩
          · exact hin x hx
          · exact hf.1
        have hgt : acc.length < (saturStep blocked w h acc).length := by
          unfold saturStep
          rw [List.length_append]
          have : ((acc.flatMap neighborKeys).filter
              (fun k => decide (FreeCell blocked w h k ∧ k ∉ acc))).dedup.length ≠ 0 :=
            fun hz => hD (List.length_eq_zero.mp hz)
          omega
        simp only [Nat.zero_add] at hb
        omega
  | succ n ih =>
      intro acc hn hin hb
      unfold saturate
      split
      · next heq => exact heq
      · next hne =>
          apply ih _ (saturStep_nodup blocked w h acc hn)
          · intro x hx
            rcases (mem_saturStep_iff blocked w h acc x).mp hx with hx | ⟨hf, -, -⟩
            · exact hin x hx
            · exact hf.1
          · have hgt : acc.length < (saturStep blocked w h acc).length := by
              unfold saturStep
              rw [List.length_append]
              have hz : ((acc.flatMap neighborKeys).filter
                  (fun k => decide (FreeCell blocked w h k ∧ k ∉ acc))).dedup ≠ [] := by
                intro hz
                exact hne (saturStep_eq_of_tail_nil blocked w h acc hz)
              have : ((acc.flatMap neighborKeys).filter
                  (fun k => decide (FreeCell blocked w h k ∧ k ∉ acc))).dedup.length ≠ 0 :=
                fun hl => hz (List.length_eq_zero.mp hl)
              omega
            omega

theorem saturate_closed (blocked : List (Int × Int)) (w h : Int)
    (res : List (Int × Int)) (hfix : saturStep blocked w h res = res)
    (x : Int × Int) (hx : x ∈ res) (k : Int × Int)
    (hk : FreeCell blocked w h k)
    (hadj : (k.1 - x.1).natAbs + (k.2 - x.2).natAbs = 1) : k ∈ res := by
  by_cases hmem : k ∈ res
  · exact hmem
  · rw [← hfix]
    exact (mem_saturStep_iff blocked w h res k).mpr (Or.inr ⟨hk, hmem, x, hx, hadj⟩)

theorem reachList_nodup (start : Int × Int) (blocked : List (Int × Int))
    (w h : Int) : (reachList start blocked w h).Nodup := by
  unfold reachList
  split
  · exact saturate_nodup blocked w h _ _ (List.nodup_singleton _)
  · exact List.nodup_nil

theorem mem_reachList (start : Int × Int) (blocked : List (Int × Int))
    (w h : Int) (k : Int × Int) :
    k ∈ reachList start blocked w h ↔ Reaches blocked w h start k := by
  unfold reachList
  split
  · next hfree =>
      constructor
      · intro hk
        have := saturate_sound blocked w h start (w.toNat * h.toNat) [start]
          (by
            intro x hx
            rw [List.mem_singleton] at hx
            subst hx
            exact ⟨hfree, Relation.ReflTransGen.refl⟩) k hk
        exact ⟨hfree, this.2⟩
      · rintro ⟨-, hrtg⟩
        have hfix := saturate_fix blocked w h (w.toNat * h.toNat) [start]
          (List.nodup_singleton _)
          (by
            intro x hx
            rw [List.mem_singleton] at hx
            subst hx
            exact hfree.1)
          (by simp)
        induction hrtg with
        | refl =>
            exact saturate_sub blocked w h _ _ start (List.mem_singleton.mpr rfl)
        | tail hab hbc ih =>
            exact saturate_closed blocked w h _ hfix _ ih _ hbc.1 hbc.2
  · next hfree =>
      simp only [List.not_mem_nil, false_iff]
      rintro ⟨hf, -⟩
      exact hfree hf

theorem mem_DIRECTIONS (m : Move) : m ∈ DIRECTIONS := by
  cases m <;> simp [DIRECTIONS]

theorem floodExpand_spec (blocked : List (Int × Int)) (w h : Int) (cur : Coord) :
    ∀ (dirs : List Move) (q : List Coord) (seen : List (Int × Int)),
      ∃ ks : List (Int × Int),
        (floodExpand blocked w h cur dirs q seen).1 =
          q ++ ks.map (fun k => (⟨k.1, k.2⟩ : Coord)) ∧
        (floodExpand blocked w h cur dirs q seen).2 = seen ++ ks ∧
        ks.Nodup ∧
        (∀ k ∈ ks, k ∉ seen ∧ FreeCell blocked w h k ∧
          ∃ m ∈ dirs, k = (cur.x + m.delta.1, cur.y + m.delta.2)) ∧
        (∀ m ∈ dirs,
          FreeCell blocked w h (cur.x + m.delta.1, cur.y + m.delta.2) →
          (cur.x + m.delta.1, cur.y + m.delta.2) ∈ seen ++ ks) := by
  intro dirs
  induction dirs with
  | nil =>
      intro q seen
      refine ⟨[], by simp [floodExpand], by simp [floodExpand], List.nodup_nil,
        by simp, by simp⟩
  | cons m ms ih =>
      intro q seen
      unfold floodExpand
      dsimp only
      by_cases hc : InB w h (cur.x + m.delta.1, cur.y + m.delta.2) ∧
          (cur.x + m.delta.1, cur.y + m.delta.2) ∉ blocked ∧
          (cur.x + m.delta.1, cur.y + m.delta.2) ∉ seen
      · rw [if_pos hc]
        obtain ⟨ks, h1, h2, h3, h4, h5⟩ :=
          ih (q ++ [⟨cur.x + m.delta.1, cur.y + m.delta.2⟩])
            (seen ++ [(cur.x + m.delta.1, cur.y + m.delta.2)])
        refine ⟨(cur.x + m.delta.1, cur.y + m.delta.2) :: ks, ?_, ?_, ?_, ?_, ?_⟩
        · rw [h1, List.append_assoc, List.singleton_append, List.map_cons]
        · rw [h2, List.append_assoc, List.singleton_append]
        · rw [List.nodup_cons]
          refine ⟨fun hmem => ?_, h3⟩
          have := (h4 _ hmem).1
          exact this (List.mem_append_right _ (List.mem_singleton.mpr rfl))
        · intro k hk
          rcases List.mem_cons.mp hk with rfl | hk
          · exact ⟨hc.2.2, ⟨hc.1, hc.2.1⟩, m, List.mem_cons_self _ _, rfl⟩
          · obtain ⟨hns, hf, m2, hm2, he⟩ := h4 k hk
            refine ⟨fun hmem => hns (List.mem_append_left _ hmem), hf,
              m2, List.mem_cons_of_mem _ hm2, he⟩
        · intro m2 hm2 hfree
          rcases List.mem_cons.mp hm2 with rfl | hm2
          · exact List.mem_append_right _ (List.mem_cons_self _ _)
          · have := h5 m2 hm2 hfree
            rw [List.append_assoc, List.singleton_append] at this
            exact this
      · rw [if_neg hc]
        obtain ⟨ks, h1, h2, h3, h4, h5⟩ := ih q seen
        refine ⟨ks, h1, h2, h3, ?_, ?_⟩
        · intro k hk
          obtain ⟨hns, hf, m2, hm2, he⟩ := h4 k hk
          exact ⟨hns, hf, m2, List.mem_cons_of_mem _ hm2, he⟩
        · intro m2 hm2 hfree
          rcases List.mem_cons.mp hm2 with rfl | hm2
          · by_cases hseen : (cur.x + m2.delta.1, cur.y + m2.delta.2) ∈ seen
            · exact List.mem_append_left _ hseen
            · exact absurd ⟨hfree.1, hfree.2, hseen⟩ hc
          · exact h5 m2 hm2 hfree

theorem reachList_closed_subset (blocked : List (Int × Int)) (w h : Int)
    (start : Int × Int) (seen : List (Int × Int))
    (hstart : start ∈ seen)
    (hclosed : ∀ k ∈ seen, ∀ k2, FreeCell blocked w h k2 →
      (k2.1 - k.1).natAbs + (k2.2 - k.2).natAbs = 1 → k2 ∈ seen) :
    ∀ k ∈ reachList start blocked w h, k ∈ seen := by
  intro k hk
  obtain ⟨hfree, hrtg⟩ := (mem_reachList start blocked w h k).mp hk
  clear hk
  induction hrtg with
  | refl => exact hstart
  | tail hab hbc ih => exact hclosed _ ih _ hbc.1 hbc.2

theorem floodAux_min (blocked : List (Int × Int)) (w h : Int)
    (start : Int × Int) :
    ∀ (fuel : Nat) (q : List Coord) (seen : List (Int × Int)),
      seen.Nodup →
      (q.map ckey).Nodup →
      (∀ c ∈ q, ckey c ∈ seen) →
      (∀ k ∈ seen, Reaches blocked w h start k) →
      start ∈ seen →
      (∀ k ∈ seen, k ∉ q.map ckey →
        ∀ k2, FreeCell blocked w h k2 →
          (k2.1 - k.1).natAbs + (k2.2 - k.2).natAbs = 1 → k2 ∈ seen) →
      floodAux blocked w h fuel q seen =
        min fuel (reachCount start blocked w h - (seen.length - q.length)) := by
  intro fuel
  induction fuel with
  | zero =>
      intro q seen _ _ _ _ _ _
      unfold floodAux
      simp
  | succ fuel ih =>
      intro q seen hseen_nd hq_nd hq_sub hreach hstart hproc
      have hseenR : seen.length ≤ reachCount start blocked w h := by
        apply nodup_subset_length_le hseen_nd
        intro x hx
        exact (mem_reachList start blocked w h x).mpr (hreach x hx)
      cases q with
      | nil =>
          unfold floodAux
          have hRseen : ∀ k ∈ reachList start blocked w h, k ∈ seen := by
            apply reachList_closed_subset blocked w h start seen hstart
            intro k hk
            exact hproc k hk (by simp)
          have hRle : reachCount start blocked w h ≤ seen.length := by
            unfold reachCount
            exact nodup_subset_length_le (reachList_nodup start blocked w h) hRseen
          simp only [List.length_nil]
          omega
      | cons cur qrest =>
          have hqlen : qrest.length + 1 ≤ seen.length := by
            have hh := nodup_subset_length_le hq_nd (fun x hx => by
              obtain ⟨c, hc, rfl⟩ := List.mem_map.mp hx
              exact hq_sub c hc)
            rw [List.length_map, List.length_cons] at hh
            exact hh
          unfold floodAux
          dsimp only
          obtain ⟨ks, h1, h2, h3, h4, h5⟩ :=
            floodExpand_spec blocked w h cur DIRECTIONS qrest seen
          rw [h1, h2]
          have hkeys : ((ks.map (fun k => (⟨k.1, k.2⟩ : Coord))).map ckey) = ks := by
            rw [List.map_map]
            apply List.map_id''
            intro k
            rfl
          have hcur_seen : ckey cur ∈ seen := hq_sub cur (List.mem_cons_self _ _)
          have hqrest_nd : (qrest.map ckey).Nodup := by
            rw [List.map_cons, List.nodup_cons] at hq_nd
            exact hq_nd.2
          have hks_not_seen : ∀ k ∈ ks, k ∉ seen := fun k hk => (h4 k hk).1
          have inv1 : (seen ++ ks).Nodup :=
            List.Nodup.append hseen_nd h3 (fun x hx hx2 => hks_not_seen x hx2 hx)
          have inv2 : ((qrest ++ ks.map (fun k => (⟨k.1, k.2⟩ : Coord))).map
              ckey).Nodup := by
            rw [List.map_append, hkeys]
            apply List.Nodup.append hqrest_nd h3
            intro x hx hx2
            obtain ⟨c, hc, rfl⟩ := List.mem_map.mp hx
            exact hks_not_seen _ hx2 (hq_sub c (List.mem_cons_of_mem _ hc))
          have inv3 : ∀ c ∈ qrest ++ ks.map (fun k => (⟨k.1, k.2⟩ : Coord)),
              ckey c ∈ seen ++ ks := by
            intro c hc
            rcases List.mem_append.mp hc with hc | hc
            · exact List.mem_append_left _ (hq_sub c (List.mem_cons_of_mem _ hc))
            · obtain ⟨k, hk, rfl⟩ := List.mem_map.mp hc
              exact List.mem_append_right _ hk
          have inv4 : ∀ k ∈ seen ++ ks, Reaches blocked w h start k := by
            intro k hk
            rcases List.mem_append.mp hk with hk | hk
            · exact hreach k hk
            · obtain ⟨-, hf, m, -, he⟩ := h4 k hk
              obtain ⟨hfs, hrtg⟩ := hreach (ckey cur) hcur_seen
              refine ⟨hfs, Relation.ReflTransGen.tail hrtg ⟨hf, ?_⟩⟩
              exact (adj_iff (ckey cur) k).mpr ⟨m, he⟩
          have inv5 : start ∈ seen ++ ks := List.mem_append_left _ hstart
          have inv6 : ∀ k ∈ seen ++ ks,
              k ∉ (qrest ++ ks.map (fun k => (⟨k.1, k.2⟩ : Coord))).map ckey →
              ∀ k2, FreeCell blocked w h k2 →
                (k2.1 - k.1).natAbs + (k2.2 - k.2).natAbs = 1 →
                k2 ∈ seen ++ ks := by
            intro k hk hknq k2 hk2f hk2adj
            rw [List.map_append, hkeys] at hknq
            rcases List.mem_append.mp hk with hk | hk
            · by_cases hkc : k = ckey cur
              · subst hkc
                obtain ⟨m, hm⟩ := (adj_iff (ckey cur) k2).mp hk2adj
                subst hm
                exact h5 m (mem_DIRECTIONS m) hk2f
              · have hknq2 : k ∉ (cur :: qrest).map ckey := by
                  rw [List.map_cons]
                  intro hmem
                  rcases List.mem_cons.mp hmem with he | hmem
                  · exact hkc he
                  · exact hknq (List.mem_append_left _ hmem)
                exact List.mem_append_left _ (hproc k hk hknq2 k2 hk2f hk2adj)
            · exact absurd (List.mem_append_right _ hk) hknq
          rw [ih _ _ inv1 inv2 inv3 inv4 inv5 inv6]
          rw [List.length_append, List.length_append, List.length_map,
            List.length_cons]
          omega

/-- C5: confirmed.  `flood_fill_size` returns the minimum of the cap and
the number of 4-connectedly reachable cells (`reachCount`, whose
membership is characterised against `Relation.ReflTransGen`, so the
count is independent of traversal order); it returns 0 when the start
cell is blocked or out of bounds, and on an empty 5×5 board from the
centre with the default cap 64 it returns 25. -/
theorem c5_flood_fill_spec :
    (∀ (start : Coord) (blocked : List (Int × Int)) (w h : Int) (limit : Nat),
        flood_fill_size start blocked w h limit =
          min limit (reachCount (ckey start) blocked w h)) ∧
    (∀ (start k : Int × Int) (blocked : List (Int × Int)) (w h : Int),
        k ∈ reachList start blocked w h ↔ Reaches blocked w h start k) ∧
    (∀ (start : Coord) (blocked : List (Int × Int)) (w h : Int) (limit : Nat),
        ckey start ∈ blocked ∨ ¬ in_bounds start w h →
          flood_fill_size start blocked w h limit = 0) ∧
    flood_fill_size ⟨2, 2⟩ [] 5 5 64 = 25 := by
  refine ⟨?_, fun start k blocked w h => mem_reachList start blocked w h k,
    fun start blocked w h limit hg => by
      unfold flood_fill_size
      rw [if_pos hg], by decide⟩
  intro start blocked w h limit
  unfold flood_fill_size
  by_cases hg : ckey start ∈ blocked ∨ ¬ in_bounds start w h
  · rw [if_pos hg]
    have hnf : ¬ FreeCell blocked w h (ckey start) := by
      rintro ⟨hinb, hnb⟩
      rcases hg with hg | hg
      · exact hnb hg
      · exact hg hinb
    have hz : reachCount (ckey start) blocked w h = 0 := by
      unfold reachCount reachList
      rw [if_neg hnf]
      rfl
    rw [hz]
    simp
  · rw [if_neg hg]
    push_neg at hg
    have hfree : FreeCell blocked w h (ckey start) := ⟨hg.2, hg.1⟩
    have := floodAux_min blocked w h (ckey start) limit [start] [ckey start]
      (List.nodup_singleton _)
      (by simp)
      (by
        intro c hc
        rw [List.mem_singleton] at hc
        subst hc
        exact List.mem_singleton.mpr rfl)
      (by
        intro k hk
        rw [List.mem_singleton] at hk
        subst hk
        exact ⟨hfree, Relation.ReflTransGen.refl⟩)
      (List.mem_singleton.mpr rfl)
      (by
        intro k hk hknq
        rw [List.mem_singleton] at hk
        exfalso
        apply hknq
        rw [List.map_singleton, hk]
        exact List.mem_singleton.mpr rfl)
    rw [this]
    simp

/-- Witness for the hypothesis-bearing part of C5: on a 5×5 board whose
centre cell is itself blocked, the flood fill from the centre returns 0. -/
theorem c5_witness :
    (ckey (⟨2, 2⟩ : Coord) ∈ [((2 : Int), (2 : Int))] ∨
      ¬ in_bounds ⟨2, 2⟩ 5 5) ∧
      flood_fill_size ⟨2, 2⟩ [(2, 2)] 5 5 64 = 0 :=
  ⟨Or.inl (by decide), c5_flood_fill_spec.2.2.1 ⟨2, 2⟩ [(2, 2)] 5 5 64
    (Or.inl (by decide))⟩

/-! ### C10: jitter only breaks exact ties -/

theorem Lat40_zero : Lat40 0 := ⟨0, by norm_num⟩

theorem Lat40_add {x y : ℚ} (hx : Lat40 x) (hy : Lat40 y) : Lat40 (x + y) := by
  obtain ⟨a, rfl⟩ := hx
  obtain ⟨b, rfl⟩ := hy
  exact ⟨a + b, by push_cast; ring⟩

theorem Lat40_sub {x y : ℚ} (hx : Lat40 x) (hy : Lat40 y) : Lat40 (x - y) := by
  obtain ⟨a, rfl⟩ := hx
  obtain ⟨b, rfl⟩ := hy
  exact ⟨a - b, by push_cast; ring⟩

theorem lat_safe_form (s : ℕ) (t : ℤ) : Lat40 ((s : ℚ) * 1 + (t : ℚ) * 3) :=
  ⟨40 * s + 120 * t, by push_cast; ring⟩

theorem lat_safe_score (gs : GameState) (blocked : List (Int × Int))
    (ft : Option Coord) (nxt : Coord) :
    Lat40 (Safe.scoreBase gs blocked ft nxt) := by
  unfold Safe.scoreBase
  exact lat_safe_form _ _

theorem lat_greedy_score (gs : GameState) (blocked : List (Int × Int))
    (target : Option Coord) (ohs : List Coord) (nxt : Coord) :
    Lat40 (Greedy.scoreBase gs blocked target ohs nxt) := by
  unfold Greedy.scoreBase
  dsimp only
  apply Lat40_sub
  · cases target with
    | none => exact Lat40_zero
    | some t =>
        apply Lat40_add
        · cases bfs_distance gs.you.head t blocked gs.board.width gs.board.height 120 with
          | none =>
              cases bfs_distance nxt t blocked gs.board.width gs.board.height 120 with
              | none => exact Lat40_zero
              | some b => exact ⟨480, by norm_num⟩
          | some a =>
              cases bfs_distance nxt t blocked gs.board.width gs.board.height 120 with
              | none => exact Lat40_zero
              | some b => exact ⟨320 * (a : ℤ) - 320 * (b : ℤ), by push_cast; ring⟩
        · split
          · exact ⟨400, by norm_num⟩
          · exact Lat40_zero
  · split
    · exact ⟨(10 - (flood_fill_size nxt blocked gs.board.width gs.board.height 120 :
        ℤ)) * 32, by push_cast; ring⟩
    · exact Lat40_zero

theorem lat_half_abs (x w : Int) :
    ∃ k : ℤ, |(x : ℚ) - ((w : ℚ) - 1) / 2| = (k : ℚ) / 2 := by
  refine ⟨|2 * x - (w - 1)|, ?_⟩
  rw [show (x : ℚ) - ((w : ℚ) - 1) / 2 = ((2 * x - (w - 1) : ℤ) : ℚ) / 2 by
    push_cast
    ring]
  rw [abs_div, Int.cast_abs]
  norm_num

theorem lat_center (hx hy nx ny w h : Int) :
    Lat40 ((|(hx : ℚ) - ((w : ℚ) - 1) / 2| + |(hy : ℚ) - ((h : ℚ) - 1) / 2| -
      (|(nx : ℚ) - ((w : ℚ) - 1) / 2| + |(ny : ℚ) - ((h : ℚ) - 1) / 2|)) *
        (1 / 5)) := by
  obtain ⟨k1, e1⟩ := lat_half_abs hx w
  obtain ⟨k2, e2⟩ := lat_half_abs hy h
  obtain ⟨k3, e3⟩ := lat_half_abs nx w
  obtain ⟨k4, e4⟩ := lat_half_abs ny h
  rw [e1, e2, e3, e4]
  exact ⟨4 * (k1 + k2 - k3 - k4), by push_cast; ring⟩

theorem lat_fold_head_bonus (th : Coord) (len : Nat) (l : List Snake) :
    ∀ acc : ℚ, Lat40 acc →
      Lat40 (l.foldl (fun acc s =>
        if s.head = th ∧ s.length < len then acc + 8 * (5 / 4) else acc) acc) := by
  induction l with
  | nil => exact fun _ hacc => hacc
  | cons s ss ih =>
      intro acc hacc
      rw [List.foldl_cons]
      split
      · exact ih _ (Lat40_add hacc ⟨400, by norm_num⟩)
      · exact ih _ hacc

theorem lat_fold_trap (gs : GameState) (nxt : Coord)
    (sim_blocked : List (Int × Int)) (w h : Int) (l : List Snake) :
    ∀ acc : ℚ, Lat40 acc →
      Lat40 (l.foldl (fun acc opp =>
        if manhattan opp.head nxt ≤ 4 then
          match Aggressive.minOppSpace sim_blocked w h opp.head with
          | some v =>
              if v < 10 then
                acc + (6 + (max 0 ((gs.you.length : Int) - (opp.length : Int)) : ℚ) *
                  (1 / 2)) * (5 / 4)
              else acc
          | none => acc
        else acc) acc) := by
  induction l with
  | nil => exact fun _ hacc => hacc
  | cons s ss ih =>
      intro acc hacc
      rw [List.foldl_cons]
      apply ih
      split
      · split
        · split
          · apply Lat40_add hacc
            refine ⟨300 + 25 * max 0 ((gs.you.length : Int) - (s.length : Int)), ?_⟩
            push_cast
            ring
          · exact hacc
        · exact hacc
      · exact hacc

theorem lat_aggr_score (gs : GameState) (blocked : List (Int × Int))
    (opponents : List Snake) (ft th : Option Coord) (nxt : Coord) :
    Lat40 (Aggressive.scoreBase gs blocked opponents ft th nxt) := by
  unfold Aggressive.scoreBase
  dsimp only
  apply Lat40_add
  apply Lat40_add
  apply Lat40_add
  apply Lat40_add
  · exact ⟨40 * (flood_fill_size nxt blocked gs.board.width gs.board.height 96 :
      ℤ), by push_cast; ring⟩
  · cases ft with
    | none => exact Lat40_zero
    | some f =>
        exact ⟨((manhattan gs.you.head f : ℤ) - (manhattan nxt f : ℤ)) * 100,
          by push_cast; ring⟩
  · cases th with
    | none => exact Lat40_zero
    | some t =>
        apply Lat40_add
        · exact ⟨((manhattan gs.you.head t : ℤ) - (manhattan nxt t : ℤ)) * 75,
            by push_cast; ring⟩
        · split
          · exact lat_fold_head_bonus t gs.you.length opponents 0 Lat40_zero
          · exact Lat40_zero
  · exact lat_fold_trap gs nxt (ckey nxt :: blocked) gs.board.width
      gs.board.height opponents 0 Lat40_zero
  · exact lat_center gs.you.head.x gs.you.head.y nxt.x nxt.y gs.board.width
      gs.board.height

theorem lat40_gap {x y : ℚ} (hx : Lat40 x) (hy : Lat40 y) (hlt : x < y) :
    x + 1 / 100 ≤ y := by
  obtain ⟨a, rfl⟩ := hx
  obtain ⟨b, rfl⟩ := hy
  have hab : a < b := by
    by_contra hle
    push_neg at hle
    have hcast : (b : ℚ) ≤ (a : ℚ) := Int.cast_le.mpr hle
    have : (b : ℚ) / 40 ≤ (a : ℚ) / 40 := by linarith
    exact absurd hlt (not_lt.mpr this)
  have hab2 : ((a : ℚ) + 1) ≤ (b : ℚ) := by
    have : a + 1 ≤ b := hab
    exact_mod_cast this
  calc (a : ℚ) / 40 + 1 / 100 ≤ (a : ℚ) / 40 + 1 / 40 := by norm_num
    _ ≤ (b : ℚ) / 40 := by linarith

theorem jitter_lt {x y jx jy : ℚ} (hx : Lat40 x) (hy : Lat40 y)
    (hlt : x < y) (hjx : jx < 1 / 100) (hjy : 0 ≤ jy) :
    x + jx < y + jy := by
  have := lat40_gap hx hy hlt
  linarith

theorem lat_order_iff {x y jx jy jx2 jy2 : ℚ} (hx : Lat40 x) (hy : Lat40 y)
    (hne : x ≠ y)
    (hjx0 : 0 ≤ jx) (hjx1 : jx < 1 / 100) (hjy0 : 0 ≤ jy) (hjy1 : jy < 1 / 100)
    (hjx20 : 0 ≤ jx2) (hjx21 : jx2 < 1 / 100) (hjy20 : 0 ≤ jy2)
    (hjy21 : jy2 < 1 / 100) :
    (x + jx < y + jy ↔ x + jx2 < y + jy2) ∧
      (x + jx = y + jy ↔ x + jx2 = y + jy2) := by
  rcases lt_or_gt_of_ne hne with hlt | hgt
  · have h1 := jitter_lt hx hy hlt hjx1 hjy0
    have h2 := jitter_lt hx hy hlt hjx21 hjy20
    exact ⟨iff_of_true h1 h2, iff_of_false (ne_of_lt h1) (ne_of_lt h2)⟩
  · have h1 := jitter_lt hy hx hgt hjy1 hjx0
    have h2 := jitter_lt hy hx hgt hjy21 hjx20
    exact ⟨iff_of_false (not_lt.mpr (le_of_lt h1)) (not_lt.mpr (le_of_lt h2)),
      iff_of_false (ne_of_gt h1) (ne_of_gt h2)⟩

theorem pairGt_congr {a b a2 b2 : ℚ × Move}
    (ham : a.2 = a2.2) (hbm : b.2 = b2.2)
    (hlt : b.1 < a.1 ↔ b2.1 < a2.1) (heq : a.1 = b.1 ↔ a2.1 = b2.1) :
    pairGt a b = pairGt a2 b2 := by
  unfold pairGt
  apply decide_eq_decide.mpr
  apply or_congr hlt
  apply and_congr heq
  rw [ham, hbm]

theorem selectBest_cons (x y : ℚ × Move) (ys : List (ℚ × Move)) :
    selectBest x (y :: ys) = selectBest (if pairGt y x then y else x) ys := rfl

theorem mem_cons_squeeze {α : Type} {p b c : α} {l : List α}
    (h : p ∈ c :: l) : p ∈ b :: c :: l := by
  rcases List.mem_cons.mp h with he | h
  · rw [he]
    simp
  · simp [h]

theorem mem_cons_skip {α : Type} {p b c : α} {l : List α}
    (h : p ∈ b :: l) : p ∈ b :: c :: l := by
  rcases List.mem_cons.mp h with he | h
  · rw [he]
    simp
  · simp [h]

theorem selectBest_congr :
    ∀ (l : List ((ℚ × Move) × (ℚ × Move))) (b : (ℚ × Move) × (ℚ × Move)),
      (∀ p ∈ b :: l, p.1.2 = p.2.2) →
      (∀ p ∈ b :: l, ∀ q ∈ b :: l,
        (p.1.1 < q.1.1 ↔ p.2.1 < q.2.1) ∧ (p.1.1 = q.1.1 ↔ p.2.1 = q.2.1)) →
      selectBest b.1 (l.map Prod.fst) = selectBest b.2 (l.map Prod.snd) := by
  intro l
  induction l with
  | nil =>
      intro b hm _
      exact hm b (List.mem_cons_self _ _)
  | cons c l2 ih =>
      intro b hm hom
      rw [List.map_cons, List.map_cons, selectBest_cons, selectBest_cons]
      have hcb : pairGt c.1 b.1 = pairGt c.2 b.2 := by
        apply pairGt_congr (hm c (by simp)) (hm b (by simp))
        · exact (hom b (by simp) c (by simp)).1
        · exact (hom c (by simp) b (by simp)).2
      by_cases hgt : pairGt c.1 b.1 = true
      · rw [if_pos hgt, if_pos (hcb ▸ hgt)]
        apply ih c
        · exact fun p hp => hm p (mem_cons_squeeze hp)
        · exact fun p hp q hq => hom p (mem_cons_squeeze hp) q (mem_cons_squeeze hq)
      · have hgt2 : ¬ pairGt c.2 b.2 = true := by
          rw [← hcb]
          exact hgt
        rw [if_neg hgt, if_neg hgt2]
        apply ih b
        · exact fun p hp => hm p (mem_cons_skip hp)
        · exact fun p hp q hq => hom p (mem_cons_skip hp) q (mem_cons_skip hq)

theorem scored_congr (cands : List (Move × Coord)) (score : Coord → ℚ)
    (j1 j2 : Nat → ℚ)
    (hj1 : ∀ i, 0 ≤ j1 i ∧ j1 i < 1 / 100)
    (hj2 : ∀ i, 0 ≤ j2 i ∧ j2 i < 1 / 100)
    (hlat : ∀ c : Coord, Lat40 (score c))
    (hdist : (cands.enum.map (fun p => (score p.2.2, p.2.1))).Pairwise
      (fun a b => a.1 ≠ b.1))
    (c : Move × Coord) (cs : List (Move × Coord)) (hc : cands = c :: cs) :
    selectBest (score c.2 + j1 0, c.1)
      ((cs.enumFrom 1).map (fun p => (score p.2.2 + j1 p.1, p.2.1))) =
    selectBest (score c.2 + j2 0, c.1)
      ((cs.enumFrom 1).map (fun p => (score p.2.2 + j2 p.1, p.2.1))) := by
  subst hc
  have hdist2 : ((c :: cs).enum).Pairwise
      (fun a b => score a.2.2 ≠ score b.2.2) := by
    rw [List.pairwise_map] at hdist
    exact hdist
  have hsym : Symmetric (fun a b : Nat × (Move × Coord) =>
      score a.2.2 ≠ score b.2.2) := fun a b hab => Ne.symm hab
  have key := selectBest_congr
    ((cs.enumFrom 1).map (fun p =>
      ((score p.2.2 + j1 p.1, p.2.1), (score p.2.2 + j2 p.1, p.2.1))))
    ((score c.2 + j1 0, c.1), (score c.2 + j2 0, c.1))
    (by
      intro p hp
      have hp2 : ∃ e ∈ ((0 : Nat), c) :: cs.enumFrom 1,
          p = ((score e.2.2 + j1 e.1, e.2.1), (score e.2.2 + j2 e.1, e.2.1)) := by
        rcases List.mem_cons.mp hp with he | hp
        · exact ⟨(0, c), List.mem_cons_self _ _, he.trans rfl⟩
        · obtain ⟨e, he, hpe⟩ := List.mem_map.mp hp
          exact ⟨e, List.mem_cons_of_mem _ he, hpe.symm⟩
      obtain ⟨e, _, rfl⟩ := hp2
      rfl)
    (by
      intro p hp q hq
      have hp2 : ∃ e ∈ ((0 : Nat), c) :: cs.enumFrom 1,
          p = ((score e.2.2 + j1 e.1, e.2.1), (score e.2.2 + j2 e.1, e.2.1)) := by
        rcases List.mem_cons.mp hp with he | hp
        · exact ⟨(0, c), List.mem_cons_self _ _, he.trans rfl⟩
        · obtain ⟨e, he, hpe⟩ := List.mem_map.mp hp
          exact ⟨e, List.mem_cons_of_mem _ he, hpe.symm⟩
      have hq2 : ∃ e ∈ ((0 : Nat), c) :: cs.enumFrom 1,
          q = ((score e.2.2 + j1 e.1, e.2.1), (score e.2.2 + j2 e.1, e.2.1)) := by
        rcases List.mem_cons.mp hq with he | hq
        · exact ⟨(0, c), List.mem_cons_self _ _, he.trans rfl⟩
        · obtain ⟨e, he, hpe⟩ := List.mem_map.mp hq
          exact ⟨e, List.mem_cons_of_mem _ he, hpe.symm⟩
      obtain ⟨e, he, rfl⟩ := hp2
      obtain ⟨e2, he2, rfl⟩ := hq2
      by_cases hee : e = e2
      · subst hee
        exact ⟨iff_of_false (lt_irrefl _) (lt_irrefl _), iff_of_true rfl rfl⟩
      · have hne : score e.2.2 ≠ score e2.2.2 :=
          hdist2.forall hsym he he2 hee
        exact lat_order_iff (hlat e.2.2) (hlat e2.2.2) hne
          (hj1 e.1).1 (hj1 e.1).2 (hj1 e2.1).1 (hj1 e2.1).2
          (hj2 e.1).1 (hj2 e.1).2 (hj2 e2.1).1 (hj2 e2.1).2)
  rw [List.map_map, List.map_map] at key
  exact key

theorem safe_move_jitter_congr (gs : GameState) (j1 j2 : Nat → ℚ)
    (hj1 : ∀ i, 0 ≤ j1 i ∧ j1 i < 1 / 100)
    (hj2 : ∀ i, 0 ≤ j2 i ∧ j2 i < 1 / 100)
    (hdist : (Safe.scoredBase gs).Pairwise (fun a b => a.1 ≠ b.1)) :
    Safe.move gs j1 = Safe.move gs j2 := by
  unfold Safe.scoredBase candidateList at hdist
  unfold Safe.move
  cases gs.you.body with
  | nil => rfl
  | cons b bs =>
      cases hc : candidatesOf gs.you.head gs.you.body gs.board.width
          gs.board.height (blockedCells gs) (avoidCells gs) with
      | nil =>
          unfold candidateList
          rw [hc]
      | cons c cs =>
          unfold candidateList
          rw [hc] at hdist ⊢
          dsimp only
          congr 1
          exact scored_congr (c :: cs)
            (fun nxt => Safe.scoreBase gs (blockedCells gs) (Safe.foodTarget gs) nxt)
            j1 j2 hj1 hj2
            (fun nxt => lat_safe_score gs (blockedCells gs) (Safe.foodTarget gs) nxt)
            hdist c cs rfl

theorem greedy_move_jitter_congr (gs : GameState) (j1 j2 : Nat → ℚ)
    (hj1 : ∀ i, 0 ≤ j1 i ∧ j1 i < 1 / 100)
    (hj2 : ∀ i, 0 ≤ j2 i ∧ j2 i < 1 / 100)
    (hdist : (Greedy.scoredBase gs).Pairwise (fun a b => a.1 ≠ b.1)) :
    Greedy.move gs j1 = Greedy.move gs j2 := by
  unfold Greedy.scoredBase candidateList at hdist
  unfold Greedy.move
  cases gs.you.body with
  | nil => rfl
  | cons b bs =>
      cases hc : candidatesOf gs.you.head gs.you.body gs.board.width
          gs.board.height (blockedCells gs) (avoidCells gs) with
      | nil =>
          unfold candidateList
          rw [hc]
      | cons c cs =>
          unfold candidateList
          rw [hc] at hdist ⊢
          dsimp only
          congr 1
          exact scored_congr (c :: cs)
            (fun nxt => Greedy.scoreBase gs (blockedCells gs)
              (Greedy.targetOf gs.you.head ((opponentsOf gs).map Snake.head)
                gs.board.food)
              ((opponentsOf gs).map Snake.head) nxt)
            j1 j2 hj1 hj2
            (fun nxt => lat_greedy_score gs (blockedCells gs) _ _ nxt)
            hdist c cs rfl

theorem aggressive_move_jitter_congr (gs : GameState) (j1 j2 : Nat → ℚ)
    (hj1 : ∀ i, 0 ≤ j1 i ∧ j1 i < 1 / 100)
    (hj2 : ∀ i, 0 ≤ j2 i ∧ j2 i < 1 / 100)
    (hdist : (Aggressive.scoredBase gs).Pairwise (fun a b => a.1 ≠ b.1)) :
    Aggressive.move gs j1 = Aggressive.move gs j2 := by
  unfold Aggressive.scoredBase candidateList at hdist
  unfold Aggressive.move
  cases gs.you.body with
  | nil => rfl
  | cons b bs =>
      cases hc : candidatesOf gs.you.head gs.you.body gs.board.width
          gs.board.height (blockedCells gs) (avoidCells gs) with
      | nil =>
          unfold candidateList
          rw [hc]
      | cons c cs =>
          unfold candidateList
          rw [hc] at hdist ⊢
          dsimp only
          congr 1
          exact scored_congr (c :: cs)
            (fun nxt => Aggressive.scoreBase gs (blockedCells gs) (opponentsOf gs)
              (Aggressive.foodTarget gs)
              (nearest_food gs.you.head ((opponentsOf gs).map Snake.head)) nxt)
            j1 j2 hj1 hj2
            (fun nxt => lat_aggr_score gs (blockedCells gs) _ _ _ nxt)
            hdist c cs rfl

/-- C10: confirmed.  Modelling the per-candidate jitter as an input in
[0, 1/100): whenever the candidates' jitter-free scores are pairwise
distinct, each bot returns the identical move for any two jitter
assignments.  Every jitter-free score is an integer multiple of 1/40, so
distinct scores differ by at least 1/40 > 1/100 and the jitter can never
override a strict score ordering — it can only decide exact ties. -/
theorem c10_jitter_only_breaks_exact_ties (gs : GameState) (j1 j2 : Nat → ℚ)
    (hj1 : ∀ i, 0 ≤ j1 i ∧ j1 i < 1 / 100)
    (hj2 : ∀ i, 0 ≤ j2 i ∧ j2 i < 1 / 100)
    (hdS : (Safe.scoredBase gs).Pairwise (fun a b => a.1 ≠ b.1))
    (hdG : (Greedy.scoredBase gs).Pairwise (fun a b => a.1 ≠ b.1))
    (hdA : (Aggressive.scoredBase gs).Pairwise (fun a b => a.1 ≠ b.1)) :
    Safe.move gs j1 = Safe.move gs j2 ∧
      Greedy.move gs j1 = Greedy.move gs j2 ∧
      Aggressive.move gs j1 = Aggressive.move gs j2 :=
  ⟨safe_move_jitter_congr gs j1 j2 hj1 hj2 hdS,
    greedy_move_jitter_congr gs j1 j2 hj1 hj2 hdG,
    aggressive_move_jitter_congr gs j1 j2 hj1 hj2 hdA⟩

/-- Witness for C10 at `gsC10w` (a single candidate, hence trivially
pairwise-distinct jitter-free scores) with the all-zero and the constant
1/200 jitter assignments. -/
theorem c10_witness :
    Safe.move gsC10w jitZero = Safe.move gsC10w jitHalf ∧
      Greedy.move gsC10w jitZero = Greedy.move gsC10w jitHalf ∧
      Aggressive.move gsC10w jitZero = Aggressive.move gsC10w jitHalf :=
  c10_jitter_only_breaks_exact_ties gsC10w jitZero jitHalf
    (fun _ => ⟨le_rfl, by unfold jitZero; norm_num⟩)
    (fun _ => ⟨by unfold jitHalf; norm_num, by unfold jitHalf; norm_num⟩)
    (by decide) (by decide) (by decide)

/-! ### C4 and the dijkstra loop of main.py -/

theorem lookupA_cons {β : Type} (k0 : Int × Int) (v0 : β)
    (rest : List ((Int × Int) × β)) (q : Int × Int) :
    Main.lookupA ((k0, v0) :: rest) q =
      if q = k0 then some v0 else Main.lookupA rest q := rfl

theorem insertA_cons {β : Type} (k0 : Int × Int) (v0 : β)
    (rest : List ((Int × Int) × β)) (k : Int × Int) (v : β) :
    Main.insertA ((k0, v0) :: rest) k v =
      if k = k0 then (k0, v) :: rest else (k0, v0) :: Main.insertA rest k v := rfl

theorem mem_keys_of_lookupA {β : Type} (m : List ((Int × Int) × β))
    (k : Int × Int) (v : β) (h : Main.lookupA m k = some v) :
    k ∈ m.map Prod.fst := by
  induction m with
  | nil => cases h
  | cons e rest ih =>
      obtain ⟨k0, v0⟩ := e
      rw [lookupA_cons] at h
      rw [List.map_cons]
      by_cases he : k = k0
      · rw [he]
        exact List.mem_cons_self _ _
      · rw [if_neg he] at h
        exact List.mem_cons_of_mem _ (ih h)

theorem lookupA_of_mem_keys {β : Type} (m : List ((Int × Int) × β))
    (k : Int × Int) (h : k ∈ m.map Prod.fst) :
    ∃ v, Main.lookupA m k = some v := by
  induction m with
  | nil => cases h
  | cons e rest ih =>
      obtain ⟨k0, v0⟩ := e
      rw [lookupA_cons]
      by_cases he : k = k0
      · rw [if_pos he]
        exact ⟨v0, rfl⟩
      · rw [if_neg he]
        rw [List.map_cons] at h
        rcases List.mem_cons.mp h with he2 | h2
        · exact absurd he2 he
        · exact ih h2

theorem lookupA_eq_none_of_not_mem {β : Type} (m : List ((Int × Int) × β))
    (k : Int × Int) (h : k ∉ m.map Prod.fst) :
    Main.lookupA m k = none := by
  cases hl : Main.lookupA m k with
  | none => rfl
  | some v => exact absurd (mem_keys_of_lookupA m k v hl) h

theorem lookupA_insertA_self {β : Type} (m : List ((Int × Int) × β))
    (k : Int × Int) (v : β) :
    Main.lookupA (Main.insertA m k v) k = some v := by
  induction m with
  | nil => simp [Main.insertA, Main.lookupA]
  | cons e rest ih =>
      obtain ⟨k0, v0⟩ := e
      rw [insertA_cons]
      by_cases he : k = k0
      · rw [if_pos he, lookupA_cons, if_pos he]
      · rw [if_neg he, lookupA_cons, if_neg he]
        exact ih

theorem lookupA_insertA_ne {β : Type} (m : List ((Int × Int) × β))
    (k : Int × Int) (v : β) (q : Int × Int) (h : q ≠ k) :
    Main.lookupA (Main.insertA m k v) q = Main.lookupA m q := by
  induction m with
  | nil => simp [Main.insertA, Main.lookupA, h]
  | cons e rest ih =>
      obtain ⟨k0, v0⟩ := e
      rw [insertA_cons]
      by_cases he : k = k0
      · rw [if_pos he, lookupA_cons, lookupA_cons]
        rw [← he]
        rw [if_neg h, if_neg h]
      · rw [if_neg he, lookupA_cons, lookupA_cons]
        by_cases hq : q = k0
        · rw [if_pos hq, if_pos hq]
        · rw [if_neg hq, if_neg hq]
          exact ih

theorem keys_insertA_of_not_mem {β : Type} (m : List ((Int × Int) × β))
    (k : Int × Int) (v : β) (h : k ∉ m.map Prod.fst) :
    (Main.insertA m k v).map Prod.fst = m.map Prod.fst ++ [k] := by
  induction m with
  | nil => rfl
  | cons e rest ih =>
      obtain ⟨k0, v0⟩ := e
      rw [List.map_cons] at h
      rw [insertA_cons]
      have hne : k ≠ k0 := fun he => h (by rw [he]; exact List.mem_cons_self _ _)
      rw [if_neg hne, List.map_cons, List.map_cons, List.cons_append]
      rw [ih (fun hm => h (List.mem_cons_of_mem _ hm))]

theorem fst_le_of_not_entLt (x m : Nat × (Int × Int)) (h : ¬ Main.entLt x m) :
    m.1 ≤ x.1 := by
  by_contra hlt
  push_neg at hlt
  exact h (Or.inl hlt)

theorem entLt_irrefl (a : Nat × (Int × Int)) : ¬ Main.entLt a a := by
  unfold Main.entLt
  omega

theorem entLt_asymm (a b : Nat × (Int × Int)) (h1 : Main.entLt a b) :
    ¬ Main.entLt b a := by
  unfold Main.entLt at h1 ⊢
  omega

theorem entLt_chain (y m0 x : Nat × (Int × Int)) (h1 : ¬ Main.entLt y m0)
    (h2 : ¬ Main.entLt m0 x) (h3 : Main.entLt y x) : False := by
  unfold Main.entLt at h1 h2 h3
  omega

theorem popMin_eq_none (l : List (Nat × (Int × Int))) :
    Main.popMin l = none ↔ l = [] := by
  cases l with
  | nil => exact iff_of_true rfl rfl
  | cons x xs =>
      constructor
      · intro h
        exfalso
        unfold Main.popMin at h
        cases hp : Main.popMin xs with
        | none =>
            rw [hp] at h
            dsimp only at h
            cases h
        | some pr =>
            rw [hp] at h
            obtain ⟨m0, rest0⟩ := pr
            dsimp only at h
            by_cases hlt : Main.entLt m0 x
            · rw [if_pos hlt] at h
              cases h
            · rw [if_neg hlt] at h
              cases h
      · intro h
        cases h

theorem popMin_spec :
    ∀ (l : List (Nat × (Int × Int))) (m : Nat × (Int × Int))
      (r : List (Nat × (Int × Int))),
      Main.popMin l = some (m, r) →
      l.Perm (m :: r) ∧ ∀ x ∈ l, ¬ Main.entLt x m := by
  intro l
  induction l with
  | nil => intro m r h; cases h
  | cons x xs ih =>
      intro m r h
      unfold Main.popMin at h
      cases hp : Main.popMin xs with
      | none =>
          rw [hp] at h
          dsimp only at h
          have hxs : xs = [] := (popMin_eq_none xs).mp hp
          subst hxs
          obtain ⟨rfl, rfl⟩ : x = m ∧ ([] : List (Nat × (Int × Int))) = r := by
            cases h
            exact ⟨rfl, rfl⟩
          refine ⟨List.Perm.refl _, ?_⟩
          intro y hy
          rw [List.mem_singleton] at hy
          subst hy
          exact entLt_irrefl y
      | some pr =>
          rw [hp] at h
          obtain ⟨m0, rest0⟩ := pr
          dsimp only at h
          obtain ⟨hperm, hmin⟩ := ih m0 rest0 hp
          by_cases hlt : Main.entLt m0 x
          · rw [if_pos hlt] at h
            obtain ⟨rfl, rfl⟩ : m0 = m ∧ x :: rest0 = r := by
              cases h
              exact ⟨rfl, rfl⟩
            constructor
            · exact (hperm.cons x).trans (List.Perm.swap _ _ _)
            · intro y hy
              rcases List.mem_cons.mp hy with rfl | hy
              · exact entLt_asymm m0 y hlt
              · exact hmin y hy
          · rw [if_neg hlt] at h
            obtain ⟨rfl, rfl⟩ : x = m ∧ xs = r := by
              cases h
              exact ⟨rfl, rfl⟩
            refine ⟨List.Perm.refl _, ?_⟩
            intro y hy
            rcases List.mem_cons.mp hy with rfl | hy
            · exact entLt_irrefl y
            · intro hyx
              exact entLt_chain y m0 x (hmin y hy) hlt hyx

theorem dijUpdate_spec (dangers : List (Int × Int)) (w h : Int)
    (cur : Int × Int) (d : Nat) :
    ∀ (dirs : List Move) (dist : List ((Int × Int) × Nat))
      (queue : List (Nat × (Int × Int)))
      (came : List ((Int × Int) × (Int × Int))),
      (∀ u dv, Main.lookupA dist u = some dv → dv ≤ d + 1) →
      (∀ k ∈ came.map Prod.fst, k ∈ dist.map Prod.fst) →
      ∃ ks : List (Int × Int),
        (Main.dijUpdate dangers w h cur d dirs dist queue came).1.map Prod.fst =
          dist.map Prod.fst ++ ks ∧
        (Main.dijUpdate dangers w h cur d dirs dist queue came).2.1 =
          queue ++ ks.map (fun k => (d + 1, k)) ∧
        (Main.dijUpdate dangers w h cur d dirs dist queue came).2.2.map Prod.fst =
          came.map Prod.fst ++ ks ∧
        ks.Nodup ∧
        (∀ k ∈ ks, k ∉ dist.map Prod.fst ∧ InB w h k ∧ k ∉ dangers ∧
          ∃ m ∈ dirs, k = (cur.1 + m.delta.1, cur.2 + m.delta.2)) ∧
        (∀ q, q ∉ ks →
          Main.lookupA (Main.dijUpdate dangers w h cur d dirs dist queue came).1 q =
            Main.lookupA dist q) ∧
        (∀ k ∈ ks,
          Main.lookupA (Main.dijUpdate dangers w h cur d dirs dist queue came).1 k =
            some (d + 1)) ∧
        (∀ q, q ∉ ks →
          Main.lookupA
            (Main.dijUpdate dangers w h cur d dirs dist queue came).2.2 q =
            Main.lookupA came q) ∧
        (∀ k ∈ ks,
          Main.lookupA
            (Main.dijUpdate dangers w h cur d dirs dist queue came).2.2 k =
            some cur) := by
  intro dirs
  induction dirs with
  | nil =>
      intro dist queue came _ _
      exact ⟨[], by simp [Main.dijUpdate], by simp [Main.dijUpdate],
        by simp [Main.dijUpdate], List.nodup_nil, by simp,
        fun q _ => by simp [Main.dijUpdate], by simp,
        fun q _ => by simp [Main.dijUpdate], by simp⟩
  | cons m ms ih =>
      intro dist queue came hvals hck
      unfold Main.dijUpdate
      dsimp only
      by_cases hg : InB w h (cur.1 + m.delta.1, cur.2 + m.delta.2) ∧
          (cur.1 + m.delta.1, cur.2 + m.delta.2) ∉ dangers
      · rw [if_pos hg]
        cases hl : Main.lookupA dist (cur.1 + m.delta.1, cur.2 + m.delta.2) with
        | none =>
            dsimp only
            have hfresh : (cur.1 + m.delta.1, cur.2 + m.delta.2) ∉
                dist.map Prod.fst := by
              intro hmem
              obtain ⟨v, hv⟩ := lookupA_of_mem_keys dist _ hmem
              rw [hl] at hv
              cases hv
            have hfreshc : (cur.1 + m.delta.1, cur.2 + m.delta.2) ∉
                came.map Prod.fst := fun hmem => hfresh (hck _ hmem)
            have hvals2 : ∀ u dv, Main.lookupA
                (Main.insertA dist (cur.1 + m.delta.1, cur.2 + m.delta.2) (d + 1))
                u = some dv → dv ≤ d + 1 := by
              intro u dv hu
              by_cases hu2 : u = (cur.1 + m.delta.1, cur.2 + m.delta.2)
              · rw [hu2, lookupA_insertA_self] at hu
                cases hu
                exact le_rfl
              · rw [lookupA_insertA_ne _ _ _ _ hu2] at hu
                exact hvals u dv hu
            have hck2 : ∀ k ∈ (Main.insertA came
                (cur.1 + m.delta.1, cur.2 + m.delta.2) cur).map Prod.fst,
                k ∈ (Main.insertA dist (cur.1 + m.delta.1, cur.2 + m.delta.2)
                  (d + 1)).map Prod.fst := by
              intro k hk
              rw [keys_insertA_of_not_mem _ _ _ hfreshc] at hk
              rw [keys_insertA_of_not_mem _ _ _ hfresh]
              rcases List.mem_append.mp hk with hk | hk
              · exact List.mem_append_left _ (hck k hk)
              · exact List.mem_append_right _ hk
            obtain ⟨ks, e1, e2, e3, hnd, hprops, l1, l2, l3, l4⟩ :=
              ih (Main.insertA dist (cur.1 + m.delta.1, cur.2 + m.delta.2) (d + 1))
                (queue ++ [(d + 1, (cur.1 + m.delta.1, cur.2 + m.delta.2))])
                (Main.insertA came (cur.1 + m.delta.1, cur.2 + m.delta.2) cur)
                hvals2 hck2
            refine ⟨(cur.1 + m.delta.1, cur.2 + m.delta.2) :: ks, ?_, ?_, ?_, ?_,
              ?_, ?_, ?_, ?_, ?_⟩
            · rw [e1, keys_insertA_of_not_mem _ _ _ hfresh, List.append_assoc,
                List.singleton_append]
            · rw [e2, List.append_assoc, List.singleton_append, List.map_cons]
            · rw [e3, keys_insertA_of_not_mem _ _ _ hfreshc, List.append_assoc,
                List.singleton_append]
            · rw [List.nodup_cons]
              refine ⟨fun hmem => ?_, hnd⟩
              have := (hprops _ hmem).1
              rw [keys_insertA_of_not_mem _ _ _ hfresh] at this
              exact this (List.mem_append_right _ (List.mem_singleton.mpr rfl))
            · intro k hk
              rcases List.mem_cons.mp hk with rfl | hk
              · exact ⟨hfresh, hg.1, hg.2, m, List.mem_cons_self _ _, rfl⟩
              · obtain ⟨hf, hi, hd2, m2, hm2, he⟩ := hprops k hk
                refine ⟨fun hmem => ?_, hi, hd2, m2, List.mem_cons_of_mem _ hm2, he⟩
                rw [keys_insertA_of_not_mem _ _ _ hfresh] at hf
                exact hf (List.mem_append_left _ hmem)
            · intro q hq
              rw [l1 q (fun hmem => hq (List.mem_cons_of_mem _ hmem))]
              exact lookupA_insertA_ne _ _ _ _
                (fun he => hq (by rw [he]; exact List.mem_cons_self _ _))
            · intro k hk
              rcases List.mem_cons.mp hk with rfl | hk
              · have hnk : (cur.1 + m.delta.1, cur.2 + m.delta.2) ∉ ks := by
                  intro hmem
                  have := (hprops _ hmem).1
                  rw [keys_insertA_of_not_mem _ _ _ hfresh] at this
                  exact this (List.mem_append_right _ (List.mem_singleton.mpr rfl))
                rw [l1 _ hnk]
                exact lookupA_insertA_self _ _ _
              · exact l2 k hk
            · intro q hq
              rw [l3 q (fun hmem => hq (List.mem_cons_of_mem _ hmem))]
              exact lookupA_insertA_ne _ _ _ _
                (fun he => hq (by rw [he]; exact List.mem_cons_self _ _))
            · intro k hk
              rcases List.mem_cons.mp hk with rfl | hk
              · have hnk : (cur.1 + m.delta.1, cur.2 + m.delta.2) ∉ ks := by
                  intro hmem
                  have := (hprops _ hmem).1
                  rw [keys_insertA_of_not_mem _ _ _ hfresh] at this
                  exact this (List.mem_append_right _ (List.mem_singleton.mpr rfl))
                rw [l3 _ hnk]
                exact lookupA_insertA_self _ _ _
              · exact l4 k hk
        | some old =>
            dsimp only
            have hnot : ¬ (d + 1 < old) :=
              not_lt.mpr (hvals _ old hl)
            rw [if_neg hnot]
            obtain ⟨ks, e1, e2, e3, hnd, hprops, l1, l2, l3, l4⟩ :=
              ih dist queue came hvals hck
            exact ⟨ks, e1, e2, e3, hnd,
              fun k hk =>
                let ⟨hf, hi, hd2, m2, hm2, he⟩ := hprops k hk
                ⟨hf, hi, hd2, m2, List.mem_cons_of_mem _ hm2, he⟩,
              l1, l2, l3, l4⟩
      · rw [if_neg hg]
        obtain ⟨ks, e1, e2, e3, hnd, hprops, l1, l2, l3, l4⟩ :=
          ih dist queue came hvals hck
        exact ⟨ks, e1, e2, e3, hnd,
          fun k hk =>
            let ⟨hf, hi, hd2, m2, hm2, he⟩ := hprops k hk
            ⟨hf, hi, hd2, m2, List.mem_cons_of_mem _ hm2, he⟩,
          l1, l2, l3, l4⟩

theorem nodup_inb_start_bound (w h : Int) (start : Int × Int)
    (l : List (Int × Int)) (hn : l.Nodup)
    (hin : ∀ k ∈ l, k = start ∨ InB w h k) :
    l.length ≤ w.toNat * h.toNat + 1 := by
  by_cases hs : start ∈ l
  · have he : (l.erase start).length ≤ w.toNat * h.toNat := by
      apply inb_length_le_bound w h (hn.erase start)
      intro x hx
      have hx2 := (List.Nodup.mem_erase_iff hn).mp hx
      rcases hin x hx2.2 with rfl | hinb
      · exact absurd rfl hx2.1
      · exact hinb
    have hl := List.length_erase_of_mem hs
    omega
  · have he : l.length ≤ w.toNat * h.toNat := by
      apply inb_length_le_bound w h hn
      intro x hx
      rcases hin x hx with rfl | hinb
      · exact absurd hx hs
      · exact hinb
    omega

theorem move_map_delta (d : Int × Int) (m : Move)
    (hm : Main.move_map d = some m) : d = m.delta := by
  unfold Main.move_map at hm
  split at hm
  · cases hm; assumption
  · split at hm
    · cases hm; assumption
    · split at hm
      · cases hm; assumption
      · split at hm
        · cases hm; assumption
        · cases hm

theorem move_map_of_delta (m : Move) : Main.move_map m.delta = some m := by
  cases m <;> rfl

theorem reconstruct_some (dangers : List (Int × Int)) (w h : Int)
    (start : Int × Int) (dist : List ((Int × Int) × Nat))
    (came : List ((Int × Int) × (Int × Int)))
    (hck : ∀ k, k ∈ came.map Prod.fst ↔ (k ∈ dist.map Prod.fst ∧ k ≠ start))
    (hcp : ∀ k p, Main.lookupA came k = some p →
      (k.1 - p.1).natAbs + (k.2 - p.2).natAbs = 1 ∧ InB w h k ∧ k ∉ dangers ∧
      ∃ dk dp, Main.lookupA dist k = some dk ∧ Main.lookupA dist p = some dp ∧
        dp < dk) :
    ∀ (fuel : Nat) (cur : Int × Int) (dv : Nat),
      Main.lookupA dist cur = some dv → dv < fuel →
      ∃ l, Main.reconstruct came start fuel cur = some l ∧
        (∀ c ∈ l, InB w h c ∧ c ∉ dangers) ∧
        (∀ c0 cs, l = c0 :: cs →
          (c0.1 - start.1).natAbs + (c0.2 - start.2).natAbs = 1) ∧
        (l = [] → cur = start) := by
  intro fuel
  induction fuel with
  | zero =>
      intro cur dv _ hlt
      exact absurd hlt (Nat.not_lt_zero dv)
  | succ n ih =>
      intro cur dv hdv hlt
      by_cases hcs : cur = start
      · refine ⟨[], ?_, by simp, by simp, fun _ => hcs⟩
        unfold Main.reconstruct
        rw [if_pos hcs]
      · have hmem : cur ∈ came.map Prod.fst :=
          (hck cur).mpr ⟨mem_keys_of_lookupA dist cur dv hdv, hcs⟩
        obtain ⟨p, hp⟩ := lookupA_of_mem_keys came cur hmem
        obtain ⟨hadj, hinb, hnd, dk, dp, hdk, hdp, hlt2⟩ := hcp cur p hp
        have hdkv : dk = dv := by
          rw [hdv] at hdk
          exact (Option.some.inj hdk).symm
        have hdpn : dp < n := by omega
        obtain ⟨l, hrec, hcells, hhead, hnil⟩ := ih p dp hdp hdpn
        refine ⟨l ++ [cur], ?_, ?_, ?_, ?_⟩
        · unfold Main.reconstruct
          rw [if_neg hcs, hp]
          dsimp only
          rw [hrec]
        · intro c hc
          rcases List.mem_append.mp hc with hc | hc
          · exact hcells c hc
          · rw [List.mem_singleton.mp hc]
            exact ⟨hinb, hnd⟩
        · intro c0 cs hl
          cases l with
          | nil =>
              simp only [List.nil_append] at hl
              cases hl
              rw [hnil rfl] at hadj
              exact hadj
          | cons a l2 =>
              simp only [List.cons_append] at hl
              have ha : a = c0 := ((List.cons.injEq _ _ _ _).mp hl).1
              rw [← ha]
              exact hhead a l2 rfl
        · intro habs
          exact absurd habs (by simp)

theorem dijkstraAux_some (dangers food : List (Int × Int)) (w h : Int)
    (start : Int × Int) :
    ∀ (fuel : Nat) (dist : List ((Int × Int) × Nat))
      (queue : List (Nat × (Int × Int)))
      (came : List ((Int × Int) × (Int × Int))),
      DijInv dangers w h start dist queue came →
      queue.length + (w.toNat * h.toNat + 1 - (dist.map Prod.fst).length) <
        fuel →
      ∃ l, Main.dijkstraAux dangers food w h start fuel dist queue came =
          some l ∧
        (∀ c ∈ l, InB w h c ∧ c ∉ dangers) ∧
        (∀ c0 cs, l = c0 :: cs →
          (c0.1 - start.1).natAbs + (c0.2 - start.2).natAbs = 1) := by
  intro fuel
  induction fuel with
  | zero =>
      intro dist queue came _ hm
      exact absurd hm (Nat.not_lt_zero _)
  | succ n ih =>
      intro dist queue came inv hm
      cases hq : Main.popMin queue with
      | none =>
          have hred : Main.dijkstraAux dangers food w h start (n + 1) dist
              queue came = some [] := by
            unfold Main.dijkstraAux
            rw [hq]
          exact ⟨[], hred, by simp, fun c0 cs hc => List.noConfusion hc⟩
      | some er =>
          obtain ⟨e, rest⟩ := er
          have hred : Main.dijkstraAux dangers food w h start (n + 1) dist
              queue came =
              if e.2 ∈ food then
                Main.reconstruct came start (w.toNat * h.toNat + 2) e.2
              else
                Main.dijkstraAux dangers food w h start n
                  (Main.dijUpdate dangers w h e.2 e.1 DIRECTIONS dist rest
                    came).1
                  (Main.dijUpdate dangers w h e.2 e.1 DIRECTIONS dist rest
                    came).2.1
                  (Main.dijUpdate dangers w h e.2 e.1 DIRECTIONS dist rest
                    came).2.2 := by
            conv_lhs => unfold Main.dijkstraAux
            rw [hq]
          rw [hred]
          obtain ⟨hperm, hmin⟩ := popMin_spec queue e rest hq
          have heq : e ∈ queue := hperm.mem_iff.mpr (List.mem_cons_self _ _)
          by_cases hf : e.2 ∈ food
          · rw [if_pos hf]
            obtain ⟨dv, hdv, hdvle⟩ := inv.queue_dist e heq
            have hdvlt : dv < w.toNat * h.toNat + 2 := by
              have h1 := inv.dist_val_bound e.2 dv hdv
              have h2 : (dist.map Prod.fst).length ≤ w.toNat * h.toNat + 1 :=
                nodup_inb_start_bound w h start _ inv.dist_nd
                  (fun k hk => (inv.keys_inb k hk).imp id And.left)
              omega
            obtain ⟨l, hrec, hcells, hhead, _⟩ :=
              reconstruct_some dangers w h start dist came inv.came_keys
                inv.came_props (w.toNat * h.toNat + 2) e.2 dv hdv hdvlt
            exact ⟨l, hrec, hcells, hhead⟩
          · rw [if_neg hf]
            have hvals : ∀ u dv, Main.lookupA dist u = some dv →
                dv ≤ e.1 + 1 := by
              intro u dv hu
              by_cases hus : u = start
              · subst hus
                have h0 := inv.dist_start
                rw [hu] at h0
                cases Option.some.inj h0
                omega
              · exact inv.dist_le u hus dv hu e heq
            have hck : ∀ k ∈ came.map Prod.fst, k ∈ dist.map Prod.fst :=
              fun k hk => ((inv.came_keys k).mp hk).1
            obtain ⟨ks, d2eq, q2eq, c2eq, hnd, hprops, l1, l2, l3, l4⟩ :=
              dijUpdate_spec dangers w h e.2 e.1 DIRECTIONS dist rest came
                hvals hck
            have hstart_mem : start ∈ dist.map Prod.fst :=
              mem_keys_of_lookupA dist start 0 inv.dist_start
            have hstart_nks : start ∉ ks :=
              fun hmem => (hprops start hmem).1 hstart_mem
            have hrest_sub : ∀ x ∈ rest, x ∈ queue :=
              fun x hx => hperm.mem_iff.mpr (List.mem_cons_of_mem _ hx)
            have hqlen : queue.length = rest.length + 1 := by
              rw [hperm.length_eq]
              rfl
            have hmin2 : ∀ x ∈ queue, e.1 ≤ x.1 :=
              fun x hx => fst_le_of_not_entLt x e (hmin x hx)
            have hedv := inv.queue_dist e heq
            obtain ⟨dve, hdve, hdvele⟩ := hedv
            have he2_nks : e.2 ∉ ks :=
              fun hmem => (hprops e.2 hmem).1
                (mem_keys_of_lookupA dist e.2 dve hdve)
            have inv2 : DijInv dangers w h start
                (Main.dijUpdate dangers w h e.2 e.1 DIRECTIONS dist rest came).1
                (Main.dijUpdate dangers w h e.2 e.1 DIRECTIONS dist rest
                  came).2.1
                (Main.dijUpdate dangers w h e.2 e.1 DIRECTIONS dist rest
                  came).2.2 := by
              constructor
              · rw [d2eq]
                exact List.nodup_append.mpr ⟨inv.dist_nd, hnd,
                  fun a ha hb => (hprops a hb).1 ha⟩
              · rw [l1 start hstart_nks]
                exact inv.dist_start
              · intro k hk
                rw [d2eq] at hk
                rcases List.mem_append.mp hk with hk | hk
                · exact inv.keys_inb k hk
                · exact Or.inr ⟨(hprops k hk).2.1, (hprops k hk).2.2.1⟩
              · intro e2 he2
                rw [q2eq] at he2
                rcases List.mem_append.mp he2 with he2 | he2
                · obtain ⟨dv, hdv, hle⟩ := inv.queue_dist e2 (hrest_sub _ he2)
                  have hnk : e2.2 ∉ ks := fun hmem =>
                    (hprops e2.2 hmem).1 (mem_keys_of_lookupA dist e2.2 dv hdv)
                  rw [l1 _ hnk]
                  exact ⟨dv, hdv, hle⟩
                · obtain ⟨k, hkmem, rfl⟩ := List.mem_map.mp he2
                  exact ⟨e.1 + 1, l2 k hkmem, le_rfl⟩
              · intro k hkne dv hdv e3 he3
                rw [q2eq] at he3
                by_cases hks : k ∈ ks
                · have hval := l2 k hks
                  rw [hdv] at hval
                  cases Option.some.inj hval
                  rcases List.mem_append.mp he3 with he3 | he3
                  · have := hmin2 e3 (hrest_sub _ he3)
                    omega
                  · obtain ⟨k2, _, rfl⟩ := List.mem_map.mp he3
                    omega
                · have hdv2 : Main.lookupA dist k = some dv := by
                    rw [← l1 k hks]
                    exact hdv
                  rcases List.mem_append.mp he3 with he3 | he3
                  · exact inv.dist_le k hkne dv hdv2 e3 (hrest_sub _ he3)
                  · obtain ⟨k2, _, rfl⟩ := List.mem_map.mp he3
                    have := inv.dist_le k hkne dv hdv2 e heq
                    omega
              · intro k
                constructor
                · intro hk
                  rw [c2eq] at hk
                  rcases List.mem_append.mp hk with hk | hk
                  · obtain ⟨hk1, hk2⟩ := (inv.came_keys k).mp hk
                    exact ⟨by rw [d2eq]; exact List.mem_append_left _ hk1, hk2⟩
                  · refine ⟨by rw [d2eq]; exact List.mem_append_right _ hk, ?_⟩
                    intro hks
                    rw [hks] at hk
                    exact hstart_nks hk
                · rintro ⟨hk1, hk2⟩
                  rw [d2eq] at hk1
                  rw [c2eq]
                  rcases List.mem_append.mp hk1 with hk1 | hk1
                  · exact List.mem_append_left _
                      ((inv.came_keys k).mpr ⟨hk1, hk2⟩)
                  · exact List.mem_append_right _ hk1
              · intro k p hkp
                by_cases hks : k ∈ ks
                · have hval := l4 k hks
                  rw [hkp] at hval
                  cases Option.some.inj hval
                  obtain ⟨hf2, hinb, hnd2, hadj⟩ := hprops k hks
                  obtain ⟨m, _, hme⟩ := hadj
                  refine ⟨(adj_iff e.2 k).mpr ⟨m, hme⟩, hinb, hnd2,
                    e.1 + 1, dve, l2 k hks, ?_, by omega⟩
                  rw [l1 e.2 he2_nks]
                  exact hdve
                · have hkp2 : Main.lookupA came k = some p := by
                    rw [← l3 k hks]
                    exact hkp
                  obtain ⟨hadj, hinb, hnd2, dk, dp, hdk, hdp, hlt⟩ :=
                    inv.came_props k p hkp2
                  have hpnks : p ∉ ks := fun hmem =>
                    (hprops p hmem).1 (mem_keys_of_lookupA dist p dp hdp)
                  refine ⟨hadj, hinb, hnd2, dk, dp, ?_, ?_, hlt⟩
                  · rw [l1 k hks]
                    exact hdk
                  · rw [l1 p hpnks]
                    exact hdp
              · intro k dv hdv
                rw [d2eq, List.length_append]
                by_cases hks : k ∈ ks
                · have hval := l2 k hks
                  rw [hdv] at hval
                  cases Option.some.inj hval
                  have h1 := inv.queue_val_bound e heq
                  have h2 : 0 < ks.length :=
                    List.length_pos.mpr (List.ne_nil_of_mem hks)
                  omega
                · have hdv2 : Main.lookupA dist k = some dv := by
                    rw [← l1 k hks]
                    exact hdv
                  have := inv.dist_val_bound k dv hdv2
                  omega
              · intro e3 he3
                rw [q2eq] at he3
                rw [d2eq, List.length_append]
                rcases List.mem_append.mp he3 with he3 | he3
                · have := inv.queue_val_bound e3 (hrest_sub _ he3)
                  omega
                · obtain ⟨k2, hk2, rfl⟩ := List.mem_map.mp he3
                  have h1 := inv.queue_val_bound e heq
                  have h2 : 0 < ks.length :=
                    List.length_pos.mpr (List.ne_nil_of_mem hk2)
                  omega
            have hbound2 : (dist.map Prod.fst).length + ks.length ≤
                w.toNat * h.toNat + 1 := by
              have := nodup_inb_start_bound w h start
                ((Main.dijUpdate dangers w h e.2 e.1 DIRECTIONS dist rest
                  came).1.map Prod.fst) inv2.dist_nd
                (fun k hk => (inv2.keys_inb k hk).imp id And.left)
              rw [d2eq, List.length_append] at this
              exact this
            have hmeas : (Main.dijUpdate dangers w h e.2 e.1 DIRECTIONS dist
                rest came).2.1.length +
                (w.toNat * h.toNat + 1 -
                  ((Main.dijUpdate dangers w h e.2 e.1 DIRECTIONS dist rest
                    came).1.map Prod.fst).length) < n := by
              rw [q2eq, d2eq, List.length_append, List.length_append,
                List.length_map]
              omega
            exact ih _ _ _ inv2 hmeas

theorem dijkstra_total (w h : Int) (start : Int × Int)
    (dangers food : List (Int × Int)) :
    ∃ l, Main.dijkstra w h start dangers food = some l ∧
      (∀ c ∈ l, InB w h c ∧ c ∉ dangers) ∧
      (∀ c0 cs, l = c0 :: cs →
        (c0.1 - start.1).natAbs + (c0.2 - start.2).natAbs = 1) := by
  have hlook : Main.lookupA [(start, 0)] start = some 0 := by
    unfold Main.lookupA
    rw [if_pos rfl]
  have inv0 : DijInv dangers w h start [(start, 0)] [(0, start)] [] := by
    constructor
    · simp
    · exact hlook
    · intro k hk
      simp only [List.map_cons, List.map_nil, List.mem_singleton] at hk
      exact Or.inl hk
    · intro e he
      rw [List.mem_singleton] at he
      subst he
      exact ⟨0, hlook, le_rfl⟩
    · intro k hk dv hdv
      unfold Main.lookupA at hdv
      rw [if_neg hk] at hdv
      cases hdv
    · intro k
      constructor
      · intro hk
        simp at hk
      · rintro ⟨h1, h2⟩
        simp only [List.map_cons, List.map_nil, List.mem_singleton] at h1
        exact absurd h1 h2
    · intro k p hkp
      cases hkp
    · intro k dv hdv
      unfold Main.lookupA at hdv
      by_cases hk : k = start
      · rw [if_pos hk] at hdv
        cases Option.some.inj hdv
        simp
      · rw [if_neg hk] at hdv
        cases hdv
    · intro e he
      rw [List.mem_singleton] at he
      subst he
      simp
  have hmeas : ([(0, start)] : List (Nat × (Int × Int))).length +
      (w.toNat * h.toNat + 1 -
        (([(start, 0)] : List ((Int × Int) × Nat)).map Prod.fst).length) <
      w.toNat * h.toNat + 2 := by
    simp
    omega
  obtain ⟨l, hl, hcells, hhead⟩ := dijkstraAux_some dangers food w h start
    (w.toNat * h.toNat + 2) [(start, 0)] [(0, start)] [] inv0 hmeas
  exact ⟨l, hl, hcells, hhead⟩

theorem main_path_spec (gs : GameState) (b0 : Coord) (bs : List Coord)
    (hb : gs.you.body = b0 :: bs) :
    ∃ l, Main.pathOf gs = some l ∧
      (∀ c ∈ l, InB gs.board.width gs.board.height c ∧
        c ∉ Main.dangersOf gs) ∧
      (∀ c0 cs, l = c0 :: cs →
        (c0.1 - (ckey b0).1).natAbs + (c0.2 - (ckey b0).2).natAbs = 1) := by
  obtain ⟨l, hl, hcells, hhead⟩ := dijkstra_total gs.board.width
    gs.board.height (ckey b0) (Main.dangersOf gs) (gs.board.food.map ckey)
  refine ⟨l, ?_, hcells, hhead⟩
  unfold Main.pathOf
  rw [hb]
  exact hl

theorem main_move_isSome (gs : GameState) (hb : gs.you.body ≠ []) :
    (Main.move gs).isSome := by
  cases hbody : gs.you.body with
  | nil => exact absurd hbody hb
  | cons b0 bs =>
      obtain ⟨l, hpath, hcells, hhead⟩ := main_path_spec gs b0 bs hbody
      unfold Main.move
      rw [hbody]
      dsimp only
      rw [hpath]
      cases l with
      | nil =>
          dsimp only
          cases Main.safeMoves (ckey b0) (Main.dangersOf gs) gs.board.width
              gs.board.height with
          | nil => rfl
          | cons m ms => rfl
      | cons next l2 =>
          dsimp only
          obtain ⟨m, hm⟩ := (adj_iff (ckey b0) next).mp (hhead next l2 rfl)
          have hd : (next.1 - (ckey b0).1, next.2 - (ckey b0).2) = m.delta := by
            rw [Prod.ext_iff]
            refine ⟨?_, ?_⟩ <;> (rw [hm]; dsimp only; ring)
          rw [hd, move_map_of_delta]
          rfl

theorem safe_move_isSome (gs : GameState) (jit : Nat → ℚ)
    (hb : gs.you.body ≠ []) : (Safe.move gs jit).isSome := by
  cases hbody : gs.you.body with
  | nil => exact absurd hbody hb
  | cons b0 bs =>
      unfold Safe.move
      rw [hbody]
      dsimp only
      cases hc : candidateList gs with
      | nil => rfl
      | cons c cs => rfl

theorem greedy_move_isSome (gs : GameState) (jit : Nat → ℚ)
    (hb : gs.you.body ≠ []) : (Greedy.move gs jit).isSome := by
  cases hbody : gs.you.body with
  | nil => exact absurd hbody hb
  | cons b0 bs =>
      unfold Greedy.move
      rw [hbody]
      dsimp only
      cases hc : candidateList gs with
      | nil => rfl
      | cons c cs => rfl

theorem aggressive_move_isSome (gs : GameState) (jit : Nat → ℚ)
    (hb : gs.you.body ≠ []) : (Aggressive.move gs jit).isSome := by
  cases hbody : gs.you.body with
  | nil => exact absurd hbody hb
  | cons b0 bs =>
      unfold Aggressive.move
      rw [hbody]
      dsimp only
      cases hc : candidateList gs with
      | nil => rfl
      | cons c cs => rfl

/-- C4: for every snapshot whose own body is non-empty, all four move
functions return a move (no exception path is reachable: `dijkstra`
terminates, path reconstruction succeeds, and the variants always reach
a `return`); in `main.py` the `move_map` lookup on the first cell of a
non-empty path never fails because that cell is at Manhattan distance
exactly 1 from the head. -/
theorem c4_every_variant_returns_a_move (gs : GameState) (jit : Nat → ℚ)
    (hb : gs.you.body ≠ []) :
    (Main.move gs).isSome ∧ (Safe.move gs jit).isSome ∧
    (Greedy.move gs jit).isSome ∧ (Aggressive.move gs jit).isSome ∧
    (∀ b0 bs next l2, gs.you.body = b0 :: bs →
      Main.pathOf gs = some (next :: l2) →
      (next.1 - (ckey b0).1).natAbs + (next.2 - (ckey b0).2).natAbs = 1 ∧
      (Main.move_map (next.1 - (ckey b0).1, next.2 - (ckey b0).2)).isSome) := by
  refine ⟨main_move_isSome gs hb, safe_move_isSome gs jit hb,
    greedy_move_isSome gs jit hb, aggressive_move_isSome gs jit hb, ?_⟩
  intro b0 bs next l2 hbody hpath
  obtain ⟨l, hl, hcells, hhead⟩ := main_path_spec gs b0 bs hbody
  rw [hpath] at hl
  cases Option.some.inj hl
  have hadj := hhead next l2 rfl
  refine ⟨hadj, ?_⟩
  obtain ⟨m, hm⟩ := (adj_iff (ckey b0) next).mp hadj
  have hd : (next.1 - (ckey b0).1, next.2 - (ckey b0).2) = m.delta := by
    rw [Prod.ext_iff]
    refine ⟨?_, ?_⟩ <;> (rw [hm]; dsimp only; ring)
  rw [hd, move_map_of_delta]
  rfl

/-- Witness for C4 on the concrete snapshot `gsBug`. -/
theorem c4_witness :
    gsBug.you.body ≠ [] ∧ (Main.move gsBug).isSome ∧
    (Safe.move gsBug jitZero).isSome ∧ (Greedy.move gsBug jitZero).isSome ∧
    (Aggressive.move gsBug jitZero).isSome :=
  ⟨by decide,
    (c4_every_variant_returns_a_move gsBug jitZero (by decide)).1,
    (c4_every_variant_returns_a_move gsBug jitZero (by decide)).2.1,
    (c4_every_variant_returns_a_move gsBug jitZero (by decide)).2.2.1,
    (c4_every_variant_returns_a_move gsBug jitZero (by decide)).2.2.2.1⟩

theorem foldl_best_mem (x : ℚ × Move) (xs : List (ℚ × Move)) :
    xs.foldl (fun best cur => if pairGt cur best then cur else best) x ∈
      x :: xs := by
  induction xs generalizing x with
  | nil => exact List.mem_singleton.mpr rfl
  | cons y ys ih =>
      dsimp only [List.foldl]
      by_cases hg : pairGt y x = true
      · rw [if_pos hg]
        exact List.mem_cons_of_mem x (ih y)
      · rw [if_neg hg]
        rcases List.mem_cons.mp (ih x) with h2 | h2
        · exact List.mem_cons.mpr (Or.inl h2)
        · exact List.mem_cons_of_mem x (List.mem_cons_of_mem y h2)

theorem selectBest_mem_snd (x : ℚ × Move) (xs : List (ℚ × Move)) :
    selectBest x xs ∈ (x :: xs).map Prod.snd := by
  unfold selectBest
  exact List.mem_map_of_mem Prod.snd (foldl_best_mem x xs)

theorem selectBest_base_mem (g : Nat × (Move × Coord) → ℚ) (c : Move × Coord)
    (cs : List (Move × Coord)) :
    selectBest (g (0, c), c.1)
      ((cs.enumFrom 1).map (fun p => (g p, p.2.1))) ∈
      (c :: cs).map Prod.fst := by
  have h := selectBest_mem_snd (g (0, c), c.1)
    ((cs.enumFrom 1).map (fun p => (g p, p.2.1)))
  rw [List.map_cons, List.map_map] at h
  have he : (cs.enumFrom 1).map
      (Prod.snd ∘ fun p : Nat × (Move × Coord) => (g p, p.2.1)) =
      cs.map Prod.fst := by
    have h2 : (Prod.snd ∘ fun p : Nat × (Move × Coord) => (g p, p.2.1)) =
        (Prod.fst ∘ Prod.snd) := rfl
    rw [h2, ← List.map_map, List.enumFrom_map_snd]
  rw [he] at h
  rw [List.map_cons]
  exact h

theorem candidatesOf_mem (head : Coord) (body : List Coord) (w h : Int)
    (blocked avoid : List (Int × Int)) (p : Move × Coord)
    (hm : p ∈ candidatesOf head body w h blocked avoid) :
    is_move_safe head body p.1 = true ∧
      p.2 = ⟨head.x + p.1.delta.1, head.y + p.1.delta.2⟩ ∧
      in_bounds p.2 w h ∧ ckey p.2 ∉ blocked ∧ ckey p.2 ∉ avoid := by
  unfold candidatesOf at hm
  obtain ⟨m2, hm2, he⟩ := List.mem_filterMap.mp hm
  by_cases hs : is_move_safe head body m2 = true
  · rw [if_pos hs] at he
    dsimp only at he
    by_cases hb : in_bounds ⟨head.x + m2.delta.1, head.y + m2.delta.2⟩ w h ∧
        ckey (⟨head.x + m2.delta.1, head.y + m2.delta.2⟩ : Coord) ∉ blocked ∧
        ckey (⟨head.x + m2.delta.1, head.y + m2.delta.2⟩ : Coord) ∉ avoid
    · rw [if_pos hb] at he
      have he2 := Option.some.inj he
      subst he2
      exact ⟨hs, rfl, hb.1, hb.2.1, hb.2.2⟩
    · rw [if_neg hb] at he
      cases he
  · rw [if_neg hs] at he
    cases he

theorem neckSafe_cell_ne_neck (head neck : Coord) (m : Move)
    (hs : neckSafe head neck m = true) :
    (⟨head.x + m.delta.1, head.y + m.delta.2⟩ : Coord) ≠ neck := by
  intro he
  have hx : head.x + m.delta.1 = neck.x := congrArg Coord.x he
  have hy : head.y + m.delta.2 = neck.y := congrArg Coord.y he
  cases m <;>
    simp only [neckSafe, Move.delta, Bool.not_eq_eq_eq_not, Bool.not_true,
      decide_eq_false_iff_not] at hs hx hy <;>
    omega

theorem safe_move_mem_candidates (gs : GameState) (jit : Nat → ℚ) (m : Move)
    (c : Move × Coord) (cs : List (Move × Coord))
    (hb : gs.you.body ≠ []) (hcand : candidateList gs = c :: cs)
    (hm : Safe.move gs jit = some m) :
    m ∈ (c :: cs).map Prod.fst := by
  cases hbody : gs.you.body with
  | nil => exact absurd hbody hb
  | cons x xs =>
      unfold Safe.move at hm
      rw [hbody] at hm
      dsimp only at hm
      rw [hcand] at hm
      dsimp only at hm
      cases Option.some.inj hm
      exact selectBest_base_mem
        (fun p => Safe.scoreBase gs (blockedCells gs) (Safe.foodTarget gs)
          p.2.2 + jit p.1) c cs

theorem greedy_move_mem_candidates (gs : GameState) (jit : Nat → ℚ) (m : Move)
    (c : Move × Coord) (cs : List (Move × Coord))
    (hb : gs.you.body ≠ []) (hcand : candidateList gs = c :: cs)
    (hm : Greedy.move gs jit = some m) :
    m ∈ (c :: cs).map Prod.fst := by
  cases hbody : gs.you.body with
  | nil => exact absurd hbody hb
  | cons x xs =>
      unfold Greedy.move at hm
      rw [hbody] at hm
      dsimp only at hm
      rw [hcand] at hm
      dsimp only at hm
      cases Option.some.inj hm
      exact selectBest_base_mem
        (fun p => Greedy.scoreBase gs (blockedCells gs)
          (Greedy.targetOf gs.you.head ((opponentsOf gs).map Snake.head)
            gs.board.food)
          ((opponentsOf gs).map Snake.head) p.2.2 + jit p.1) c cs

theorem aggressive_move_mem_candidates (gs : GameState) (jit : Nat → ℚ)
    (m : Move) (c : Move × Coord) (cs : List (Move × Coord))
    (hb : gs.you.body ≠ []) (hcand : candidateList gs = c :: cs)
    (hm : Aggressive.move gs jit = some m) :
    m ∈ (c :: cs).map Prod.fst := by
  cases hbody : gs.you.body with
  | nil => exact absurd hbody hb
  | cons x xs =>
      unfold Aggressive.move at hm
      rw [hbody] at hm
      dsimp only at hm
      rw [hcand] at hm
      dsimp only at hm
      cases Option.some.inj hm
      exact selectBest_base_mem
        (fun p => Aggressive.scoreBase gs (blockedCells gs) (opponentsOf gs)
          (Aggressive.foodTarget gs)
          (nearest_food gs.you.head ((opponentsOf gs).map Snake.head))
          p.2.2 + jit p.1) c cs

/-- C6 amended: outside the no-legal-move panic fallbacks, no move
function ever returns the direction stepping from the head onto the
second body segment.  With the body at least 2 long: whenever the
candidate list of the example bots is non-empty, the returned direction's
cell differs from the neck; and whenever `main.py` either finds a
non-empty path or (with an empty path) finds at least one safe fallback
direction, its returned direction's cell differs from the neck.  (The
panic fallbacks — the variants' fixed "down" and `main.py`'s fixed "up" —
can step onto the neck, as the counterexample shows.) -/
theorem c6_amended (gs : GameState) (jit : Nat → ℚ)
    (b0 b1 : Coord) (rest : List Coord)
    (hb : gs.you.body = b0 :: b1 :: rest) :
    (∀ m, candidateList gs ≠ [] →
      (Safe.move gs jit = some m ∨ Greedy.move gs jit = some m ∨
        Aggressive.move gs jit = some m) →
      (⟨gs.you.head.x + m.delta.1, gs.you.head.y + m.delta.2⟩ : Coord) ≠ b1) ∧
    (∀ m, gs.you ∈ gs.board.snakes →
      (Main.pathOf gs = some [] → Main.safeMovesOf gs ≠ []) →
      Main.move gs = some m →
      ((ckey b0).1 + m.delta.1, (ckey b0).2 + m.delta.2) ≠ ckey b1) := by
  have hbne : gs.you.body ≠ [] := by
    rw [hb]
    exact List.cons_ne_nil _ _
  constructor
  · intro m hc hvar
    cases hcand : candidateList gs with
    | nil => exact absurd hcand hc
    | cons c cs =>
        have hmem : m ∈ (c :: cs).map Prod.fst := by
          rcases hvar with hv | hv | hv
          · exact safe_move_mem_candidates gs jit m c cs hbne hcand hv
          · exact greedy_move_mem_candidates gs jit m c cs hbne hcand hv
          · exact aggressive_move_mem_candidates gs jit m c cs hbne hcand hv
        obtain ⟨cand, hcmem, hceq⟩ := List.mem_map.mp hmem
        rw [← hcand] at hcmem
        unfold candidateList at hcmem
        obtain ⟨hsafe, _, _, _, _⟩ := candidatesOf_mem gs.you.head
          gs.you.body gs.board.width gs.board.height (blockedCells gs)
          (avoidCells gs) cand hcmem
        rw [hb] at hsafe
        have hns : neckSafe gs.you.head b1 cand.1 = true := hsafe
        rw [hceq] at hns
        exact neckSafe_cell_ne_neck gs.you.head b1 m hns
  · intro m hyou hfall hm
    have hneck_danger : ckey b1 ∈ Main.dangersOf gs := by
      unfold Main.dangersOf board_occupied_cells
      refine List.mem_flatMap.mpr ⟨gs.you, hyou, ?_⟩
      apply List.mem_map_of_mem ckey
      rw [hb]
      exact List.mem_cons_of_mem _ (List.mem_cons_self _ _)
    obtain ⟨l, hpath, hcells, hhead⟩ := main_path_spec gs b0 (b1 :: rest) hb
    unfold Main.move at hm
    rw [hb] at hm
    dsimp only at hm
    rw [hpath] at hm
    cases l with
    | nil =>
        dsimp only at hm
        have hsm : Main.safeMovesOf gs ≠ [] := hfall hpath
        cases hsml : Main.safeMoves (ckey b0) (Main.dangersOf gs)
            gs.board.width gs.board.height with
        | nil =>
            have hsm2 : Main.safeMovesOf gs = [] := by
              unfold Main.safeMovesOf
              rw [hb]
              exact hsml
            exact absurd hsm2 hsm
        | cons m0 ms =>
            rw [hsml] at hm
            dsimp only at hm
            cases Option.some.inj hm
            have hmem : m ∈ Main.safeMoves (ckey b0) (Main.dangersOf gs)
                gs.board.width gs.board.height := by
              rw [hsml]
              exact List.mem_cons_self _ _
            unfold Main.safeMoves at hmem
            have hfilt := (List.mem_filter.mp hmem).2
            have hprop := of_decide_eq_true hfilt
            intro he
            apply hprop.2
            rw [he]
            exact hneck_danger
    | cons next l2 =>
        dsimp only at hm
        have hd := move_map_delta _ m hm
        have hnext_nd : next ∉ Main.dangersOf gs :=
          (hcells next (List.mem_cons_self _ _)).2
        intro he
        have hcell : ((ckey b0).1 + m.delta.1, (ckey b0).2 + m.delta.2) =
            next := by
          rw [← hd, Prod.ext_iff]
          constructor <;> (dsimp only; ring)
        rw [hcell] at he
        apply hnext_nd
        rw [he]
        exact hneck_danger

/-- Witness for the amended C6 on `gsC6w`: with three candidates and a
non-empty fallback list, both `safe.py` and `main.py` return "up", whose
cell (2,3) is not the neck (2,1). -/
theorem c6_amended_witness :
    gsC6w.you.body = ⟨0, 1⟩ :: ⟨0, 0⟩ :: [] ∧
    candidateList gsC6w ≠ [] ∧
    Safe.move gsC6w jitZero = some .up ∧
    (⟨gsC6w.you.head.x + Move.up.delta.1, gsC6w.you.head.y +
      Move.up.delta.2⟩ : Coord) ≠ ⟨0, 0⟩ ∧
    gsC6w.you ∈ gsC6w.board.snakes ∧
    Main.move gsC6w = some .up ∧
    ((ckey ⟨0, 1⟩).1 + Move.up.delta.1, (ckey ⟨0, 1⟩).2 + Move.up.delta.2) ≠
      ckey ⟨0, 0⟩ :=
  ⟨by decide, by decide, by decide,
    (c6_amended gsC6w jitZero ⟨0, 1⟩ ⟨0, 0⟩ [] (by decide)).1 .up (by decide)
      (Or.inl (by decide)),
    by decide, by decide,
    (c6_amended gsC6w jitZero ⟨0, 1⟩ ⟨0, 0⟩ [] (by decide)).2 .up (by decide)
      (fun _ => by decide) (by decide)⟩

theorem mank_manhattan (a b : Coord) : mank (ckey a) (ckey b) = manhattan a b :=
  rfl

theorem mank_eq_zero_iff (a b : Int × Int) : mank a b = 0 ↔ a = b := by
  unfold mank
  rw [Prod.ext_iff]
  omega

theorem mank_adj_le (s c : Int × Int) (m : Move) :
    mank s (c.1 + m.delta.1, c.2 + m.delta.2) ≤ mank s c + 1 := by
  unfold mank
  cases m <;> simp only [Move.delta] <;> omega

theorem ckey_inj (a b : Coord) (h : ckey a = ckey b) : a = b := by
  obtain ⟨ax, ay⟩ := a
  obtain ⟨bx, by2⟩ := b
  unfold ckey at h
  rw [Prod.ext_iff] at h
  obtain ⟨h1, h2⟩ := h
  dsimp only at h1 h2
  rw [h1, h2]

theorem exists_closer_neighbor (w h : Int) (s x : Int × Int) (j : Nat)
    (hs : InB w h s) (hx : InB w h x) (hm : mank s x = j + 1) :
    ∃ (y : Int × Int) (m : Move), InB w h y ∧
      x = (y.1 + m.delta.1, y.2 + m.delta.2) ∧ mank s y = j := by
  obtain ⟨s1, s2⟩ := s
  obtain ⟨x1, x2⟩ := x
  unfold mank at hm
  unfold InB at hs hx ⊢
  dsimp only at hs hx hm
  rcases lt_trichotomy x1 s1 with h1 | h1 | h1
  · refine ⟨(x1 + 1, x2), .left, by dsimp only; omega, ?_, ?_⟩
    · simp only [Move.delta, Prod.mk.injEq]
      omega
    · unfold mank
      dsimp only
      omega
  · rcases lt_trichotomy x2 s2 with h2 | h2 | h2
    · refine ⟨(x1, x2 + 1), .down, by dsimp only; omega, ?_, ?_⟩
      · simp only [Move.delta, Prod.mk.injEq]
        omega
      · unfold mank
        dsimp only
        omega
    · exfalso
      omega
    · refine ⟨(x1, x2 - 1), .up, by dsimp only; omega, ?_, ?_⟩
      · simp only [Move.delta, Prod.mk.injEq]
        omega
      · unfold mank
        dsimp only
        omega
  · refine ⟨(x1 - 1, x2), .right, by dsimp only; omega, ?_, ?_⟩
    · simp only [Move.delta, Prod.mk.injEq]
      omega
    · unfold mank
      dsimp only
      omega

theorem bfsExpand_spec (target : Coord) (w h : Int) (cur : Coord)
    (dist : Nat) :
    ∀ (ms : List Move) (q : List (Coord × Nat)) (seen : List (Int × Int)),
      ckey target ∉ seen →
      (match bfsExpand target [] w h cur dist ms q seen with
       | .inl d =>
           d = dist + 1 ∧ ∃ m ∈ ms,
             ckey target = (cur.x + m.delta.1, cur.y + m.delta.2) ∧
             InB w h (ckey target)
       | .inr qs =>
           ∃ ks : List (Int × Int),
             qs.2 = seen ++ ks ∧
             qs.1 = q ++ ks.map (fun k => ((⟨k.1, k.2⟩ : Coord), dist + 1)) ∧
             ks.Nodup ∧
             (∀ k ∈ ks, k ∉ seen ∧ InB w h k ∧ k ≠ ckey target ∧
               ∃ m ∈ ms, k = (cur.x + m.delta.1, cur.y + m.delta.2)) ∧
             (∀ m ∈ ms, InB w h (cur.x + m.delta.1, cur.y + m.delta.2) →
               (cur.x + m.delta.1, cur.y + m.delta.2) ≠ ckey target ∧
               (cur.x + m.delta.1, cur.y + m.delta.2) ∈ seen ++ ks)) := by
  intro ms
  induction ms with
  | nil =>
      intro q seen hts
      exact ⟨[], by simp [bfsExpand], by simp [bfsExpand], List.nodup_nil,
        by simp, by simp⟩
  | cons m rest ih =>
      intro q seen hts
      unfold bfsExpand
      dsimp only
      by_cases hib : InB w h (cur.x + m.delta.1, cur.y + m.delta.2)
      · rw [if_neg (not_not.mpr hib)]
        by_cases hsn : (cur.x + m.delta.1, cur.y + m.delta.2) ∈ seen
        · have hbs : (cur.x + m.delta.1, cur.y + m.delta.2) ∈
              ([] : List (Int × Int)) ∨
              (cur.x + m.delta.1, cur.y + m.delta.2) ∈ seen := Or.inr hsn
          rw [if_pos hbs]
          have hrec := ih q seen hts
          cases hbe : bfsExpand target [] w h cur dist rest q seen with
          | inl d =>
              rw [hbe] at hrec
              obtain ⟨hd, m2, hm2, he, hinb2⟩ := hrec
              exact ⟨hd, m2, List.mem_cons_of_mem _ hm2, he, hinb2⟩
          | inr qs =>
              rw [hbe] at hrec
              obtain ⟨ks, e1, e2, hnd, hprops, hcomp⟩ := hrec
              refine ⟨ks, e1, e2, hnd, ?_, ?_⟩
              · intro k hk
                obtain ⟨hkf, hki, hkt, m2, hm2, hke⟩ := hprops k hk
                exact ⟨hkf, hki, hkt, m2, List.mem_cons_of_mem _ hm2, hke⟩
              · intro m2 hm2 hinb2
                rcases List.mem_cons.mp hm2 with rfl | hm2
                · refine ⟨fun he => hts ?_, List.mem_append_left _ hsn⟩
                  rw [← he]
                  exact hsn
                · exact hcomp m2 hm2 hinb2
        · have hbs : ¬ ((cur.x + m.delta.1, cur.y + m.delta.2) ∈
              ([] : List (Int × Int)) ∨
              (cur.x + m.delta.1, cur.y + m.delta.2) ∈ seen) := by
            rw [List.mem_nil_iff]
            exact fun hc => hc.elim False.elim hsn
          rw [if_neg hbs]
          by_cases htg : cur.x + m.delta.1 = target.x ∧
              cur.y + m.delta.2 = target.y
          · rw [if_pos htg]
            refine ⟨rfl, m, List.mem_cons_self _ _, ?_, ?_⟩
            · unfold ckey
              rw [Prod.ext_iff]
              exact ⟨htg.1.symm, htg.2.symm⟩
            · have : ckey target = (cur.x + m.delta.1, cur.y + m.delta.2) := by
                unfold ckey
                rw [Prod.ext_iff]
                exact ⟨htg.1.symm, htg.2.symm⟩
              rw [this]
              exact hib
          · rw [if_neg htg]
            have hknt : (cur.x + m.delta.1, cur.y + m.delta.2) ≠
                ckey target := by
              intro he
              apply htg
              unfold ckey at he
              rw [Prod.ext_iff] at he
              exact ⟨he.1, he.2⟩
            have hts2 : ckey target ∉
                seen ++ [(cur.x + m.delta.1, cur.y + m.delta.2)] := by
              intro hc
              rcases List.mem_append.mp hc with hc | hc
              · exact hts hc
              · exact hknt (List.mem_singleton.mp hc).symm
            have hrec := ih
              (q ++ [(⟨cur.x + m.delta.1, cur.y + m.delta.2⟩, dist + 1)])
              (seen ++ [(cur.x + m.delta.1, cur.y + m.delta.2)]) hts2
            cases hbe : bfsExpand target [] w h cur dist rest
                (q ++ [(⟨cur.x + m.delta.1, cur.y + m.delta.2⟩, dist + 1)])
                (seen ++ [(cur.x + m.delta.1, cur.y + m.delta.2)]) with
            | inl d =>
                rw [hbe] at hrec
                obtain ⟨hd, m2, hm2, he, hinb2⟩ := hrec
                exact ⟨hd, m2, List.mem_cons_of_mem _ hm2, he, hinb2⟩
            | inr qs =>
                rw [hbe] at hrec
                obtain ⟨ks, e1, e2, hnd, hprops, hcomp⟩ := hrec
                refine ⟨(cur.x + m.delta.1, cur.y + m.delta.2) :: ks,
                  ?_, ?_, ?_, ?_, ?_⟩
                · rw [e1, List.append_assoc, List.singleton_append]
                · rw [e2, List.append_assoc, List.singleton_append,
                    List.map_cons]
                · rw [List.nodup_cons]
                  refine ⟨fun hmem => ?_, hnd⟩
                  exact (hprops _ hmem).1 (List.mem_append_right _
                    (List.mem_singleton.mpr rfl))
                · intro k hk
                  rcases List.mem_cons.mp hk with rfl | hk
                  · exact ⟨hsn, hib, hknt, m, List.mem_cons_self _ _, rfl⟩
                  · obtain ⟨hkf, hki, hkt, m2, hm2, hke⟩ := hprops k hk
                    refine ⟨fun hmem => hkf (List.mem_append_left _ hmem),
                      hki, hkt, m2, List.mem_cons_of_mem _ hm2, hke⟩
                · intro m2 hm2 hinb2
                  rcases List.mem_cons.mp hm2 with rfl | hm2
                  · refine ⟨hknt, ?_⟩
                    rw [← List.singleton_append, ← List.append_assoc]
                    exact List.mem_append_left _ (List.mem_append_right _
                      (List.mem_singleton.mpr rfl))
                  · have := hcomp m2 hm2 hinb2
                    refine ⟨this.1, ?_⟩
                    rw [← List.singleton_append, ← List.append_assoc]
                    exact this.2
      · rw [if_pos hib]
        have hrec := ih q seen hts
        cases hbe : bfsExpand target [] w h cur dist rest q seen with
        | inl d =>
            rw [hbe] at hrec
            obtain ⟨hd, m2, hm2, he, hinb2⟩ := hrec
            exact ⟨hd, m2, List.mem_cons_of_mem _ hm2, he, hinb2⟩
        | inr qs =>
            rw [hbe] at hrec
            obtain ⟨ks, e1, e2, hnd, hprops, hcomp⟩ := hrec
            refine ⟨ks, e1, e2, hnd, ?_, ?_⟩
            · intro k hk
              obtain ⟨hkf, hki, hkt, m2, hm2, hke⟩ := hprops k hk
              exact ⟨hkf, hki, hkt, m2, List.mem_cons_of_mem _ hm2, hke⟩
            · intro m2 hm2 hinb2
              rcases List.mem_cons.mp hm2 with rfl | hm2
              · exact absurd hinb2 hib
              · exact hcomp m2 hm2 hinb2

theorem map_ckey_pair (ks : List (Int × Int)) (d : Nat) :
    (ks.map (fun k => ((⟨k.1, k.2⟩ : Coord), d))).map
      (fun e : Coord × Nat => ckey e.1) = ks := by
  induction ks with
  | nil => rfl
  | cons k ks2 ih =>
      simp only [List.map_cons, ih]
      rfl

theorem pairwise_const_map (d : Nat) (l : List (Int × Int)) :
    List.Pairwise (fun e1 e2 : Coord × Nat => e1.2 ≤ e2.2)
      (l.map (fun k => ((⟨k.1, k.2⟩ : Coord), d))) := by
  induction l with
  | nil => exact List.Pairwise.nil
  | cons k l2 ih =>
      rw [List.map_cons, List.pairwise_cons]
      exact ⟨fun e he => by
        obtain ⟨k2, _, rfl⟩ := List.mem_map.mp he
        exact le_rfl, ih⟩

theorem bfs_pop_lower_bound (w h : Int) (start target : Coord)
    (P seen : List (Int × Int)) (cur : Coord) (d : Nat)
    (rest : List (Coord × Nat))
    (hseq : seen = P ++ (((cur, d) :: rest).map (fun e => ckey e.1)))
    (hqd : ∀ e ∈ (cur, d) :: rest, mank (ckey start) (ckey e.1) = e.2)
    (hpw : List.Pairwise (fun e1 e2 : Coord × Nat => e1.2 ≤ e2.2)
      ((cur, d) :: rest))
    (hS2 : ∀ x, InB w h x → x ≠ ckey target →
      mank (ckey start) x ≤ d → x ∈ seen)
    (hS4 : ∀ p ∈ P, ∀ m : Move,
      InB w h (p.1 + m.delta.1, p.2 + m.delta.2) →
      (p.1 + m.delta.1, p.2 + m.delta.2) ≠ ckey target ∧
      (p.1 + m.delta.1, p.2 + m.delta.2) ∈ seen)
    (hsi : InB w h (ckey start)) (hti : InB w h (ckey target))
    (hst : ckey start ≠ ckey target) :
    d + 1 ≤ mank (ckey start) (ckey target) := by
  by_contra hcon
  push_neg at hcon
  have hM1 : 1 ≤ mank (ckey start) (ckey target) := by
    rcases Nat.eq_zero_or_pos (mank (ckey start) (ckey target)) with h0 | h1
    · exact absurd ((mank_eq_zero_iff _ _).mp h0) hst
    · exact h1
  obtain ⟨z, m, hzi, hze, hzm⟩ := exists_closer_neighbor w h (ckey start)
    (ckey target) (mank (ckey start) (ckey target) - 1) hsi hti (by omega)
  have hznt : z ≠ ckey target := by
    intro he
    rw [he] at hzm
    omega
  have hzseen : z ∈ seen := hS2 z hzi hznt (by omega)
  rw [hseq] at hzseen
  rcases List.mem_append.mp hzseen with hzP | hzQ
  · exact (hS4 z hzP m (hze ▸ hti)).1 hze.symm
  · obtain ⟨e, he, hek⟩ := List.mem_map.mp hzQ
    have hge : d ≤ e.2 := by
      rcases List.mem_cons.mp he with he2 | he2
      · rw [he2]
      · exact (List.pairwise_cons.mp hpw).1 e he2
    have hez := hqd e he
    rw [hek] at hez
    omega

theorem bfs_closure_all_seen (w h : Int) (start target : Coord)
    (seen : List (Int × Int))
    (hstart : ckey start ∈ seen)
    (hS4 : ∀ p ∈ seen, ∀ m : Move,
      InB w h (p.1 + m.delta.1, p.2 + m.delta.2) →
      (p.1 + m.delta.1, p.2 + m.delta.2) ≠ ckey target ∧
      (p.1 + m.delta.1, p.2 + m.delta.2) ∈ seen)
    (hsi : InB w h (ckey start)) (hti : InB w h (ckey target))
    (hst : ckey start ≠ ckey target) : False := by
  have hM1 : 1 ≤ mank (ckey start) (ckey target) := by
    rcases Nat.eq_zero_or_pos (mank (ckey start) (ckey target)) with h0 | h1
    · exact absurd ((mank_eq_zero_iff _ _).mp h0) hst
    · exact h1
  have chain : ∀ j x, InB w h x → mank (ckey start) x = j →
      j < mank (ckey start) (ckey target) → x ∈ seen := by
    intro j
    induction j with
    | zero =>
        intro x hxi hx0 _
        rw [← (mank_eq_zero_iff (ckey start) x).mp hx0]
        exact hstart
    | succ n ihn =>
        intro x hxi hxm hxM
        obtain ⟨y, m, hyi, hye, hym⟩ := exists_closer_neighbor w h
          (ckey start) x n hsi hxi hxm
        have hyM : n < mank (ckey start) (ckey target) := by omega
        have hyseen : y ∈ seen := ihn y hyi hym hyM
        have h4 := hS4 y hyseen m (hye ▸ hxi)
        rw [← hye] at h4
        exact h4.2
  obtain ⟨z, m, hzi, hze, hzm⟩ := exists_closer_neighbor w h (ckey start)
    (ckey target) (mank (ckey start) (ckey target) - 1) hsi hti (by omega)
  have hzseen : z ∈ seen := chain _ z hzi hzm (by omega)
  exact (hS4 z hzseen m (hze ▸ hti)).1 hze.symm


theorem bfsAux_mank (w h : Int) (start target : Coord)
    (hsi : InB w h (ckey start)) (hti : InB w h (ckey target))
    (hst : ckey start ≠ ckey target) :
    ∀ (fuel : Nat) (P : List (Int × Int)) (q : List (Coord × Nat))
      (seen : List (Int × Int)),
      seen = P ++ q.map (fun e => ckey e.1) →
      seen.Nodup →
      ckey start ∈ seen →
      (∀ k ∈ seen, InB w h k ∧ k ≠ ckey target) →
      (∀ e ∈ q, mank (ckey start) (ckey e.1) = e.2) →
      List.Pairwise (fun e1 e2 : Coord × Nat => e1.2 ≤ e2.2) q →
      (∀ e1 r2, q = e1 :: r2 → ∀ e ∈ q, e.2 ≤ e1.2 + 1) →
      (∀ e1 r2, q = e1 :: r2 → ∀ x, InB w h x → x ≠ ckey target →
        mank (ckey start) x ≤ e1.2 → x ∈ seen) →
      (∀ p ∈ P, ∀ m : Move,
        InB w h (p.1 + m.delta.1, p.2 + m.delta.2) →
        (p.1 + m.delta.1, p.2 + m.delta.2) ≠ ckey target ∧
        (p.1 + m.delta.1, p.2 + m.delta.2) ∈ seen) →
      w.toNat * h.toNat ≤ fuel + P.length →
      bfsAux target [] w h fuel q seen =
        some (mank (ckey start) (ckey target)) := by
  intro fuel
  induction fuel with
  | zero =>
      intro P q seen hseq hnd hstart hsp hqd hpw hband hS2 hS4 hcount
      exfalso
      have hPnd : P.Nodup := by
        rw [hseq] at hnd
        exact (List.nodup_append.mp hnd).1
      have hnd2 : (P ++ [ckey target]).Nodup := by
        rw [List.nodup_append]
        refine ⟨hPnd, List.nodup_singleton _, ?_⟩
        intro a ha hb
        have h2 := (hsp a (by rw [hseq]; exact List.mem_append_left _ ha)).2
        exact h2 (List.mem_singleton.mp hb)
      have hinb2 : ∀ x ∈ P ++ [ckey target], InB w h x := by
        intro x hx
        rcases List.mem_append.mp hx with hx | hx
        · exact (hsp x (by rw [hseq]; exact List.mem_append_left _ hx)).1
        · rw [List.mem_singleton.mp hx]
          exact hti
      have hbound := inb_length_le_bound w h hnd2 hinb2
      rw [List.length_append, List.length_singleton] at hbound
      omega
  | succ n ih =>
      intro P q seen hseq hnd hstart hsp hqd hpw hband hS2 hS4 hcount
      cases q with
      | nil =>
          exfalso
          have hPseen : seen = P := by
            rw [hseq]
            simp
          apply bfs_closure_all_seen w h start target seen hstart ?_ hsi hti
            hst
          intro p hp
          apply hS4 p
          rw [← hPseen]
          exact hp
      | cons e0 rest =>
          obtain ⟨cur, d⟩ := e0
          have hred : bfsAux target [] w h (n + 1) ((cur, d) :: rest) seen =
              match bfsExpand target [] w h cur d DIRECTIONS rest seen with
              | .inl dd => some dd
              | .inr qs => bfsAux target [] w h n qs.1 qs.2 := rfl
          rw [hred]
          have hts : ckey target ∉ seen := fun hc => (hsp _ hc).2 rfl
          have hspec := bfsExpand_spec target w h cur d DIRECTIONS rest seen
            hts
          have hcurd : mank (ckey start) (ckey cur) = d :=
            hqd (cur, d) (List.mem_cons_self _ _)
          have hS2h : ∀ x, InB w h x → x ≠ ckey target →
              mank (ckey start) x ≤ d → x ∈ seen := by
            intro x hxi hxt hxm
            exact hS2 (cur, d) rest rfl x hxi hxt hxm
          have hlow : d + 1 ≤ mank (ckey start) (ckey target) :=
            bfs_pop_lower_bound w h start target P seen cur d rest hseq hqd
              hpw hS2h hS4 hsi hti hst
          cases hbe : bfsExpand target [] w h cur d DIRECTIONS rest seen with
          | inl dd =>
              rw [hbe] at hspec
              obtain ⟨hdd, m, hm, hte, hti2⟩ := hspec
              have hup : mank (ckey start) (ckey target) ≤ d + 1 := by
                have h2 := mank_adj_le (ckey start) (ckey cur) m
                rw [hcurd] at h2
                rw [hte]
                exact h2
              show some dd = some (mank (ckey start) (ckey target))
              rw [hdd]
              congr 1
              omega
          | inr qs =>
              rw [hbe] at hspec
              obtain ⟨ks, e1, e2, knd, kprops, kcomp⟩ := hspec
              show bfsAux target [] w h n qs.1 qs.2 =
                some (mank (ckey start) (ckey target))
              rw [e1, e2]
              have hksmank : ∀ k ∈ ks, mank (ckey start) k = d + 1 := by
                intro k hk
                obtain ⟨hkf, hki, hkt, m2, hm2, hke⟩ := kprops k hk
                have hle : mank (ckey start) k ≤ d + 1 := by
                  rw [hke]
                  have h2 := mank_adj_le (ckey start) (ckey cur) m2
                  rw [hcurd] at h2
                  exact h2
                by_contra hne
                have hlt : mank (ckey start) k ≤ d := by omega
                exact hkf (hS2h k hki hkt hlt)
              have hseen2 : seen ++ ks = (P ++ [ckey cur]) ++
                  ((rest ++ ks.map
                      (fun k => ((⟨k.1, k.2⟩ : Coord), d + 1))).map
                    (fun e : Coord × Nat => ckey e.1)) := by
                rw [hseq, List.map_append, map_ckey_pair, List.map_cons]
                simp [List.append_assoc]
              have hnod2 : (seen ++ ks).Nodup := by
                rw [List.nodup_append]
                exact ⟨hnd, knd, fun a ha hb => (kprops a hb).1 ha⟩
              have hst2 : ckey start ∈ seen ++ ks :=
                List.mem_append_left _ hstart
              have hsp2 : ∀ k ∈ seen ++ ks, InB w h k ∧ k ≠ ckey target := by
                intro k hk
                rcases List.mem_append.mp hk with hk | hk
                · exact hsp k hk
                · exact ⟨(kprops k hk).2.1, (kprops k hk).2.2.1⟩
              have hqd2 : ∀ e ∈ rest ++ ks.map
                  (fun k => ((⟨k.1, k.2⟩ : Coord), d + 1)),
                  mank (ckey start) (ckey e.1) = e.2 := by
                intro e he
                rcases List.mem_append.mp he with he | he
                · exact hqd e (List.mem_cons_of_mem _ he)
                · obtain ⟨k, hk, rfl⟩ := List.mem_map.mp he
                  exact hksmank k hk
              have hle_all : ∀ e ∈ rest ++ ks.map
                  (fun k => ((⟨k.1, k.2⟩ : Coord), d + 1)), e.2 ≤ d + 1 := by
                intro e he
                rcases List.mem_append.mp he with he | he
                · exact hband (cur, d) rest rfl e (List.mem_cons_of_mem _ he)
                · obtain ⟨k, hk, rfl⟩ := List.mem_map.mp he
                  exact le_rfl
              have hge_all : ∀ e ∈ rest ++ ks.map
                  (fun k => ((⟨k.1, k.2⟩ : Coord), d + 1)), d ≤ e.2 := by
                intro e he
                rcases List.mem_append.mp he with he | he
                · exact (List.pairwise_cons.mp hpw).1 e he
                · obtain ⟨k, hk, rfl⟩ := List.mem_map.mp he
                  exact Nat.le_succ d
              have hpw2 : List.Pairwise
                  (fun e1 e2 : Coord × Nat => e1.2 ≤ e2.2)
                  (rest ++ ks.map
                    (fun k => ((⟨k.1, k.2⟩ : Coord), d + 1))) := by
                rw [List.pairwise_append]
                refine ⟨(List.pairwise_cons.mp hpw).2,
                  pairwise_const_map (d + 1) ks, ?_⟩
                intro a ha b hb
                obtain ⟨k, hk, rfl⟩ := List.mem_map.mp hb
                exact hband (cur, d) rest rfl a (List.mem_cons_of_mem _ ha)
              have hband2 : ∀ e1 r2,
                  rest ++ ks.map (fun k => ((⟨k.1, k.2⟩ : Coord), d + 1)) =
                    e1 :: r2 →
                  ∀ e ∈ rest ++ ks.map
                    (fun k => ((⟨k.1, k.2⟩ : Coord), d + 1)),
                    e.2 ≤ e1.2 + 1 := by
                intro e1x r2x hq2 e he
                have h1 : d ≤ e1x.2 := by
                  apply hge_all
                  rw [hq2]
                  exact List.mem_cons_self _ _
                have h2 : e.2 ≤ d + 1 := hle_all e he
                omega
              have hS22 : ∀ e1 r2,
                  rest ++ ks.map (fun k => ((⟨k.1, k.2⟩ : Coord), d + 1)) =
                    e1 :: r2 →
                  ∀ x, InB w h x → x ≠ ckey target →
                    mank (ckey start) x ≤ e1.2 → x ∈ seen ++ ks := by
                intro e1x r2x hq2 x hxi hxt hxm
                by_cases hxd : mank (ckey start) x ≤ d
                · exact List.mem_append_left _ (hS2h x hxi hxt hxd)
                · have he1b : e1x.2 ≤ d + 1 := by
                    apply hle_all
                    rw [hq2]
                    exact List.mem_cons_self _ _
                  have hxe : mank (ckey start) x = d + 1 := by omega
                  obtain ⟨y, m2, hyi, hye, hym⟩ := exists_closer_neighbor
                    w h (ckey start) x d hsi hxi hxe
                  have hynt : y ≠ ckey target := by
                    intro he
                    rw [he] at hym
                    omega
                  have hyseen : y ∈ seen := hS2h y hyi hynt (le_of_eq hym)
                  rw [hseq] at hyseen
                  rcases List.mem_append.mp hyseen with hyP | hyQ
                  · have h4 := hS4 y hyP m2 (hye ▸ hxi)
                    rw [← hye] at h4
                    exact List.mem_append_left _ h4.2
                  · rw [List.map_cons] at hyQ
                    rcases List.mem_cons.mp hyQ with hyc | hyr
                    · have hxeq : x =
                          (cur.x + m2.delta.1, cur.y + m2.delta.2) := by
                        rw [hye, hyc]
                        rfl
                      have hinbx : InB w h
                          (cur.x + m2.delta.1, cur.y + m2.delta.2) := by
                        rw [← hxeq]
                        exact hxi
                      have h4 := kcomp m2 (mem_DIRECTIONS m2) hinbx
                      rw [hxeq]
                      exact h4.2
                    · exfalso
                      obtain ⟨e, heR, hek⟩ := List.mem_map.mp hyr
                      have heq2 : e.2 = d := by
                        have h5 := hqd e (List.mem_cons_of_mem _ heR)
                        rw [hek] at h5
                        omega
                      have heQ : e ∈ e1x :: r2x := by
                        rw [← hq2]
                        exact List.mem_append_left _ heR
                      rcases List.mem_cons.mp heQ with he2 | he2
                      · rw [he2] at heq2
                        omega
                      · have h6 := (List.pairwise_cons.mp
                          (hq2 ▸ hpw2)).1 e he2
                        omega
              have hS42 : ∀ p ∈ P ++ [ckey cur], ∀ m2 : Move,
                  InB w h (p.1 + m2.delta.1, p.2 + m2.delta.2) →
                  (p.1 + m2.delta.1, p.2 + m2.delta.2) ≠ ckey target ∧
                  (p.1 + m2.delta.1, p.2 + m2.delta.2) ∈ seen ++ ks := by
                intro p hp m2 hinb2
                rcases List.mem_append.mp hp with hp | hp
                · have h4 := hS4 p hp m2 hinb2
                  exact ⟨h4.1, List.mem_append_left _ h4.2⟩
                · have hpe := List.mem_singleton.mp hp
                  subst hpe
                  exact kcomp m2 (mem_DIRECTIONS m2) hinb2
              have hcount2 : w.toNat * h.toNat ≤ n +
                  (P ++ [ckey cur]).length := by
                rw [List.length_append, List.length_singleton]
                omega
              exact ih (P ++ [ckey cur])
                (rest ++ ks.map (fun k => ((⟨k.1, k.2⟩ : Coord), d + 1)))
                (seen ++ ks) hseen2 hnod2 hst2 hsp2 hqd2 hpw2 hband2 hS22
                hS42 hcount2

/-- C8 counterexample: on a 1×131 board with no obstacles, head (0,0)
and target (0,130) are distinct in-bounds cells at Manhattan distance
130, yet `bfs_distance` with the default cap 120 exhausts its step
budget and returns `None`. -/
theorem c8_counterexample :
    InB 1 131 (ckey ⟨0, 0⟩) ∧ InB 1 131 (ckey ⟨0, 130⟩) ∧
    (⟨0, 0⟩ : Coord) ≠ ⟨0, 130⟩ ∧ manhattan ⟨0, 0⟩ ⟨0, 130⟩ = 130 ∧
    bfs_distance ⟨0, 0⟩ ⟨0, 130⟩ [] 1 131 120 = none := by
  refine ⟨by decide, by decide, by decide, by decide, by decide⟩

/-- C8 amended: with an empty blocked set, distinct in-bounds endpoints
and a cap at least the number of board cells (so the budget cannot run
out), `bfs_distance` returns exactly the Manhattan distance. -/
theorem c8_amended (start target : Coord) (w h : Int) (limit : Nat)
    (hsi : InB w h (ckey start)) (hti : InB w h (ckey target))
    (hst : start ≠ target) (hcap : w.toNat * h.toNat ≤ limit) :
    bfs_distance start target [] w h limit =
      some (manhattan start target) := by
  have hstk : ckey start ≠ ckey target := fun he => hst (ckey_inj _ _ he)
  unfold bfs_distance
  rw [if_neg (by simp), if_neg hst, ← mank_manhattan]
  apply bfsAux_mank w h start target hsi hti hstk limit [] [(start, 0)]
    [ckey start]
  · rfl
  · exact List.nodup_singleton _
  · exact List.mem_singleton.mpr rfl
  · intro k hk
    rw [List.mem_singleton.mp hk]
    exact ⟨hsi, hstk⟩
  · intro e he
    rw [List.mem_singleton.mp he]
    exact (mank_eq_zero_iff _ _).mpr rfl
  · exact List.pairwise_singleton _ _
  · intro e1 r2 hq e he
    rw [List.mem_singleton.mp he]
    have h1 : (start, 0) = e1 := ((List.cons.injEq _ _ _ _).mp hq).1
    rw [← h1]
    exact Nat.le_succ 0
  · intro e1 r2 hq x hxi hxt hxm
    have h1 : (start, 0) = e1 := ((List.cons.injEq _ _ _ _).mp hq).1
    rw [← h1] at hxm
    have h2 : mank (ckey start) x = 0 := Nat.le_zero.mp hxm
    exact List.mem_singleton.mpr ((mank_eq_zero_iff _ _).mp h2).symm
  · intro p hp
    exact absurd hp (List.not_mem_nil p)
  · simpa using hcap

/-- Witness for the amended C8 at the spec-style concrete inputs: a 5×5
obstacle-free board, start (0,0), target (2,3), default cap 120; the
result is `some 5`, the Manhattan distance. -/
theorem c8_amended_witness :
    InB 5 5 (ckey ⟨0, 0⟩) ∧ InB 5 5 (ckey ⟨2, 3⟩) ∧
    (⟨0, 0⟩ : Coord) ≠ ⟨2, 3⟩ ∧ (5 : Int).toNat * (5 : Int).toNat ≤ 120 ∧
    bfs_distance ⟨0, 0⟩ ⟨2, 3⟩ [] 5 5 120 =
      some (manhattan ⟨0, 0⟩ ⟨2, 3⟩) ∧
    manhattan ⟨0, 0⟩ ⟨2, 3⟩ = 5 :=
  ⟨by decide, by decide, by decide, by decide,
    c8_amended ⟨0, 0⟩ ⟨2, 3⟩ 5 5 120 (by decide) (by decide) (by decide)
      (by decide), by decide⟩
